import Mathlib

/-!
Verification of the PHN blockchain node core (a small proof-of-work
cryptocurrency node written in Python) against its natural-language
specification.

The Python sources are shallowly embedded as executable Lean definitions:

* numeric values (amounts, fees, timestamps) are modelled as rationals `ℚ`
  (the Python code uses IEEE floats; none of the verified properties depends
  on float rounding, and all literal constants involved are exact),
* Python dicts used as records become Lean structures with all required
  fields present (dicts lacking a required field are outside the model; the
  corresponding presence checks in the code are then vacuously true),
* Python dicts used as maps become association lists in insertion order,
* SHA-256 block hashing (`hash_block`), ECDSA signature verification and
  public-key-to-address derivation are abstracted as parameters in
  `EmbParams`: every theorem below quantifies over them, since none of the
  verified control flow depends on the concrete digest values,
* fallible operations return `Except`/`Bool × String` mirroring the
  `(ok, reason)` pairs of the source; reason strings are kept as constant
  tags (the source interpolates runtime values into them).
-/

/-- A transaction (`tx` dict of the source, see `app/core/transactions.py`). -/
structure Tx where
  sender : String
  recipient : String
  amount : ℚ
  fee : ℚ
  timestamp : ℚ
  nonce : Option Int
  txid : String
  signature : String
deriving DecidableEq, Inhabited, Repr

/-- A block without its `hash` field: the value that `hash_block` actually
digests (the source pops `"hash"` before hashing). -/
structure BlockCore where
  index : Nat
  timestamp : ℚ
  transactions : List Tx
  prev_hash : String
  nonce : Nat
deriving DecidableEq, Inhabited, Repr

/-- A full block (`app/core/blockchain.py`). -/
structure Block where
  index : Nat
  timestamp : ℚ
  transactions : List Tx
  prev_hash : String
  nonce : Nat
  hash : String
deriving DecidableEq, Inhabited, Repr

/-- The hash-free part of a block, i.e. what `hash_block` digests. -/
def Block.core (b : Block) : BlockCore :=
  ⟨b.index, b.timestamp, b.transactions, b.prev_hash, b.nonce⟩

/-- The cryptographic primitives of the node, abstracted: `hashCore` stands
for SHA-256 over the canonical `orjson` encoding of a hash-free block,
`ecdsaVerify` for secp256k1 signature verification of a transaction (the
whole `try` block of `validate_signature`, exceptions returning `false`),
`pkToAddress` for `public_key_to_address`. All theorems quantify over these. -/
structure EmbParams where
  hashCore : BlockCore → String
  ecdsaVerify : Tx → Bool
  pkToAddress : String → String

/-- `hash_block` of `app/core/blockchain.py`: digest of the block with its
`hash` field removed. -/
def hash_block (P : EmbParams) (b : Block) : String :=
  P.hashCore b.core

/-! ### Configuration (`app/settings.py` defaults) -/

def STARTING_BLOCK_REWARD : ℚ := 50

def HALVING_INTERVAL : Nat := 1800000

def MIN_TX_FEE : ℚ := mkRat 2 100

/-- `settings.DIFFICULTY`, the fixed configured difficulty (default 3). -/
def SETTINGS_DIFFICULTY : Nat := 3

/-! ### Computable rational arithmetic

The Batteries `Rat` operations are `irreducible`, so the embedding uses
its own kernel-computable implementations, each proved equal to the
corresponding Mathlib operation. -/

/-- Rational division in a kernel-computable form (Lean's `Rat.div` does
not reduce definitionally; `ratDiv_eq_div` identifies this with `/`). -/
def ratDiv (a b : ℚ) : ℚ :=
  mkRat (a.num * (if b.num < 0 then -(b.den : Int) else (b.den : Int)))
    (a.den * b.num.natAbs)

theorem ratDiv_eq_div (a b : ℚ) : ratDiv a b = a / b := by
  unfold ratDiv
  rcases lt_trichotomy b.num 0 with hb | hb | hb
  · rw [if_pos hb, Rat.mkRat_eq_div]
    have had : ((a.den : ℚ)) ≠ 0 := by
      exact_mod_cast a.den_nz
    have hbd : ((b.den : ℚ)) ≠ 0 := by
      exact_mod_cast b.den_nz
    have hbn : ((b.num : ℚ)) ≠ 0 := by
      exact_mod_cast hb.ne
    have habs : ((b.num.natAbs : ℚ)) = -(b.num : ℚ) := by
      rw [Int.cast_natAbs]
      exact_mod_cast abs_of_neg hb
    conv_rhs => rw [← Rat.num_div_den a, ← Rat.num_div_den b]
    push_cast
    rw [habs]
    field_simp
  · rw [if_neg (by omega), Rat.mkRat_eq_div]
    have hbz : b = 0 := by
      rwa [Rat.num_eq_zero] at hb
    subst hbz
    simp
  · rw [if_neg (by omega), Rat.mkRat_eq_div]
    have had : ((a.den : ℚ)) ≠ 0 := by
      exact_mod_cast a.den_nz
    have hbd : ((b.den : ℚ)) ≠ 0 := by
      exact_mod_cast b.den_nz
    have hbn : ((b.num : ℚ)) ≠ 0 := by
      exact_mod_cast hb.ne'
    have habs : ((b.num.natAbs : ℚ)) = (b.num : ℚ) := by
      rw [Int.cast_natAbs]
      exact_mod_cast abs_of_pos hb
    conv_rhs => rw [← Rat.num_div_den a, ← Rat.num_div_den b]
    push_cast
    rw [habs]
    field_simp

/-- Addition on rationals in kernel-computable form (the Batteries
implementations of `Rat.add`, `Rat.sub` and `Rat.mul` are `irreducible`;
these are identified with `+`, `-`, `*` by the lemmas below). -/
def ratAdd (a b : ℚ) : ℚ :=
  mkRat (a.num * b.den + b.num * a.den) (a.den * b.den)

/-- Subtraction on rationals in kernel-computable form. -/
def ratSub (a b : ℚ) : ℚ :=
  mkRat (a.num * b.den - b.num * a.den) (a.den * b.den)

/-- Multiplication on rationals in kernel-computable form. -/
def ratMul (a b : ℚ) : ℚ :=
  mkRat (a.num * b.num) (a.den * b.den)

theorem ratAdd_eq_add (a b : ℚ) : ratAdd a b = a + b := by
  unfold ratAdd
  rw [Rat.mkRat_eq_div]
  have had : ((a.den : ℚ)) ≠ 0 := by exact_mod_cast a.den_nz
  have hbd : ((b.den : ℚ)) ≠ 0 := by exact_mod_cast b.den_nz
  conv_rhs => rw [← Rat.num_div_den a, ← Rat.num_div_den b]
  push_cast
  field_simp
  try ring

theorem ratSub_eq_sub (a b : ℚ) : ratSub a b = a - b := by
  unfold ratSub
  rw [Rat.mkRat_eq_div]
  have had : ((a.den : ℚ)) ≠ 0 := by exact_mod_cast a.den_nz
  have hbd : ((b.den : ℚ)) ≠ 0 := by exact_mod_cast b.den_nz
  conv_rhs => rw [← Rat.num_div_den a, ← Rat.num_div_den b]
  push_cast
  field_simp
  ring

theorem ratMul_eq_mul (a b : ℚ) : ratMul a b = a * b := by
  unfold ratMul
  rw [Rat.mkRat_eq_div]
  have had : ((a.den : ℚ)) ≠ 0 := by exact_mod_cast a.den_nz
  have hbd : ((b.den : ℚ)) ≠ 0 := by exact_mod_cast b.den_nz
  conv_rhs => rw [← Rat.num_div_den a, ← Rat.num_div_den b]
  push_cast
  field_simp

/-- Left-fold summation (`bal += ...` accumulation) over rationals. -/
def ratSum (l : List ℚ) : ℚ :=
  l.foldl ratAdd 0

/-- Python's `abs` on rationals, in kernel-computable form
(`ratAbs_eq_abs` identifies it with `|·|`). -/
def ratAbs (a : ℚ) : ℚ :=
  if a < 0 then -a else a

theorem ratAbs_eq_abs (a : ℚ) : ratAbs a = |a| := by
  unfold ratAbs
  split
  · exact (abs_of_neg (by assumption)).symm
  · exact (abs_of_nonneg (not_lt.mp (by assumption))).symm

/-- Python's binary `max(a, b)`: the second argument only when it is
strictly greater (computable by structural `Rat` comparison; equal to
Mathlib's `max` by `pymax_eq_max`). -/
def pymax (a b : ℚ) : ℚ :=
  if b > a then b else a

theorem pymax_eq_max (a b : ℚ) : pymax a b = max a b := by
  unfold pymax
  split
  · exact (max_eq_right (le_of_lt (by assumption))).symm
  · exact (max_eq_left (le_of_not_lt (by assumption))).symm


/-! ### Validation-record store (the `validation` LMDB table) -/

/-- A POUV validation record as persisted by `_save_pouv_record`. -/
structure ValidationRecord where
  status : String
  reason : String
deriving DecidableEq, Inhabited, Repr

/-- The validation table: txid keyed association list in insertion order. -/
abbrev Db := List (String × ValidationRecord)

/-- `get_validation_record`: first binding of the key, if any. -/
def Db.lookup (db : Db) (k : String) : Option ValidationRecord :=
  (List.find? (fun p => p.1 = k) db).map (·.2)

/-- `save_validation_record`: Python dict assignment — update the existing
binding in place, else append. -/
def Db.save (db : Db) (k : String) (v : ValidationRecord) : Db :=
  if (List.find? (fun p => p.1 = k) db).isSome then
    List.map (fun p => if p.1 = k then (k, v) else p) db
  else
    db ++ [(k, v)]

/-! ### `app/core/blockchain.py` -/

/-- Lowercase hex digits, for the public-key shape test in `get_balance`. -/
def hexDigits : List Char :=
  "0123456789abcdef".data

/-- `all(c in '0123456789abcdef' for c in s.lower())`. -/
def isHexString (s : String) : Bool :=
  s.toLower.data.all (fun c => hexDigits.contains c)

/-- `validate_signature` of `app/core/blockchain.py`: system senders must
carry the literal `"genesis"`; user senders need a nonempty non-`"genesis"`
signature that verifies under ECDSA. -/
def validate_signature (P : EmbParams) (tx : Tx) : Bool :=
  if tx.sender = "coinbase" ∨ tx.sender = "miners_pool" then
    tx.signature = "genesis"
  else if tx.signature = "" ∨ tx.signature = "genesis" then
    false
  else if tx.sender = "" then
    false
  else
    P.ecdsaVerify tx

/-- Balance contribution of one transaction, chain part of `get_balance`:
`if recipient == address` adds, then `if sender == address` subtracts, with
an `elif` converting 128-hex-char public-key senders to their address. -/
def txBalanceDelta (P : EmbParams) (address : String) (tx : Tx) : ℚ :=
  let recv : ℚ := if tx.recipient = address then tx.amount else 0
  let send : ℚ :=
    if tx.sender = address then ratAdd tx.amount tx.fee
    else if tx.sender ≠ "coinbase" ∧ tx.sender ≠ "miners_pool" ∧
        tx.sender.length = 128 ∧ P.pkToAddress tx.sender = address then
      ratAdd tx.amount tx.fee
    else 0
  ratSub recv send

/-- `get_balance` of `app/core/blockchain.py`: sums over the confirmed chain
and the pending list; a 128-hex-char public key is first coerced to its
derived PHN address. -/
def get_balance (P : EmbParams) (chain : List Block) (pending : List Tx)
    (address : String) : ℚ :=
  if address = "" then 0
  else
    let addr :=
      if address.length = 128 ∧ isHexString address then P.pkToAddress address
      else address
    let chainPart :=
      ratSum (chain.map (fun b => ratSum (b.transactions.map (txBalanceDelta P addr))))
    let pendingPart := ratSum (pending.map (txBalanceDelta P addr))
    ratAdd chainPart pendingPart

/-- `get_current_block_reward` of `app/core/blockchain.py`: halvings are
counted from the chain height in blocks, and the reward is floored at
`0.00001` (not `0.0001`; the cumulative-mined variant in
`app/core/transactions.py` floors at `0.0001` but is not on the validation
path of the node). -/
def get_current_block_reward (chain : List Block) : ℚ :=
  pymax (ratDiv STARTING_BLOCK_REWARD (2 ^ (chain.length / HALVING_INTERVAL)))
    (mkRat 1 100000)

/-- The reward formula in its plain `/`-and-`max` reading. -/
theorem get_current_block_reward_eq (chain : List Block) :
    get_current_block_reward chain =
      max (STARTING_BLOCK_REWARD / 2 ^ (chain.length / HALVING_INTERVAL)) (1/100000) := by
  rw [get_current_block_reward, pymax_eq_max, ratDiv_eq_div]
  norm_num [Rat.mkRat_eq_div]

/-- The `10^-9` tolerance constant of the validators, in `/` form. -/
theorem tol_eq : (mkRat 1 1000000000 : ℚ) = 1/1000000000 := by
  rw [Rat.mkRat_eq_div]; norm_num

/-- Does some transaction in the chain carry this txid (replay scan of
POUV step 1)? -/
def chainHasTxid (chain : List Block) (txid : String) : Bool :=
  chain.any (fun b => b.transactions.any (fun tx => tx.txid = txid))

/-- Rejection reasons of `validate_transaction_pouv`, one constructor per
`return False` site (the source returns interpolated strings). -/
inductive PouvReason where
  | replay
  | prevRejected (reason : String)
  | futureTimestamp
  | tooOld
  | invalidSignature
  | invalidTxid
  | nonPositiveAmount
  | feeTooLow
  | insufficientBalance
deriving DecidableEq, Repr

/-- `validate_transaction_pouv` of `app/core/blockchain.py`, with the
validation-record store threaded through (the source persists a record on
each verdict). Step 2 (required dict fields) is vacuous in the typed model. -/
def validate_transaction_pouv (P : EmbParams) (chain : List Block)
    (pending : List Tx) (db : Db) (now : ℚ) (tx : Tx) :
    Except PouvReason Unit × Db :=
  -- Step 1: replay ledger
  match db.lookup tx.txid with
  | some rec =>
    if rec.status = "valid" then
      if chainHasTxid chain tx.txid then (.error .replay, db)
      else (.ok (), db)
    else (.error (.prevRejected rec.reason), db)
  | none =>
    -- Step 3: timestamp window
    if tx.timestamp > ratAdd now 60 then
      (.error .futureTimestamp, db.save tx.txid ⟨"invalid", "future"⟩)
    else if ratSub now tx.timestamp > 3600 then
      (.error .tooOld, db.save tx.txid ⟨"invalid", "too old"⟩)
    -- Step 4: signature (user senders only)
    else if tx.sender ≠ "coinbase" ∧ tx.sender ≠ "miners_pool" ∧
        ¬ validate_signature P tx then
      (.error .invalidSignature, db.save tx.txid ⟨"invalid", "Invalid signature"⟩)
    -- Step 5: txid shape
    else if tx.txid = "" ∨ tx.txid.length ≠ 64 then
      (.error .invalidTxid, db.save tx.txid ⟨"invalid", "Invalid txid format"⟩)
    -- Step 6: amount strictly positive
    else if tx.amount ≤ 0 then
      (.error .nonPositiveAmount, db.save tx.txid ⟨"invalid", "Amount must be positive"⟩)
    -- Step 7: fee floor (user senders only)
    else if tx.fee < MIN_TX_FEE ∧ tx.sender ≠ "coinbase" ∧ tx.sender ≠ "miners_pool" then
      (.error .feeTooLow, db.save tx.txid ⟨"invalid", "Fee too low"⟩)
    -- Step 8: solvency (user senders only)
    else if (tx.sender ≠ "coinbase" ∧ tx.sender ≠ "miners_pool") ∧
        get_balance P chain pending tx.sender < ratAdd tx.amount tx.fee then
      (.error .insufficientBalance, db.save tx.txid ⟨"invalid", "Insufficient balance"⟩)
    else
      (.ok (), db.save tx.txid ⟨"valid", "All checks passed"⟩)

/-- Accumulator of the transaction loop inside `validate_block`. -/
structure TxScan where
  coinbase_count : Nat
  coinbase_amount : ℚ
  total_fees : ℚ
  seen : List String
  db : Db

/-- The per-transaction loop of `validate_block`: duplicate-txid tracking,
coinbase counting, POUV for user transactions, fee accumulation. -/
def scan_txs (P : EmbParams) (chain : List Block) (pending : List Tx)
    (now : ℚ) : List Tx → TxScan → Except (String × Db) TxScan
  | [], s => .ok s
  | tx :: rest, s =>
    if tx.txid = "" ∨ s.seen.contains tx.txid then
      .error ("Duplicate or missing txid", s.db)
    else
      let s1 := { s with seen := tx.txid :: s.seen }
      if tx.sender = "coinbase" then
        scan_txs P chain pending now rest
          { s1 with
            coinbase_count := s1.coinbase_count + 1
            coinbase_amount := ratAdd s1.coinbase_amount tx.amount }
      else if tx.sender = "miners_pool" then
        scan_txs P chain pending now rest s1
      else
        match validate_transaction_pouv P chain pending s1.db now tx with
        | (.error _, db') => .error ("Invalid tx in block", db')
        | (.ok _, db') =>
          scan_txs P chain pending now rest
            { s1 with db := db', total_fees := ratAdd s1.total_fees tx.fee }

/-- A string of `n` ASCII zero characters (`"0" * n`). -/
def zeros (n : Nat) : String :=
  String.mk (List.replicate n '0')

/-- Python `s.startswith(pre)`: code-point prefix test. -/
def str_startswith (s pre : String) : Bool :=
  pre.data.isPrefixOf s.data

/-- The chain-linkage prefix of `validate_block`: index succession and
`prev_hash` against the current tip (or genesis shape on an empty chain). -/
def link_check (chain : List Block) (block : Block) : Except String Unit :=
  match chain.getLast? with
  | some last =>
    if block.index ≠ last.index + 1 then .error "Invalid index"
    else if block.prev_hash ≠ last.hash then .error "prev_hash mismatch"
    else .ok ()
  | none =>
    if block.index ≠ 0 then .error "Genesis index must be 0" else .ok ()

/-- `validate_block` of `app/core/blockchain.py`. Note that the proof-of-work
test uses the fixed `settings.DIFFICULTY`, and that the fee-payout test only
requires SOME matching `miners_pool` transaction to exist. -/
def validate_block (P : EmbParams) (chain : List Block) (pending : List Tx)
    (db : Db) (now : ℚ) (block : Block) : Except String Unit × Db :=
  match link_check chain block with
  | .error e => (.error e, db)
  | .ok _ =>
    let expected := hash_block P block
    if block.hash ≠ expected then (.error "Hash mismatch", db)
    else if ¬ str_startswith expected (zeros SETTINGS_DIFFICULTY) then
      (.error "Does not meet difficulty", db)
    else
      match scan_txs P chain pending now block.transactions ⟨0, 0, 0, [], db⟩ with
      | .error (e, db') => (.error e, db')
      | .ok s =>
        if s.coinbase_count ≠ 1 then
          (.error "Exactly one coinbase tx required", s.db)
        else if ¬ (ratAbs (ratSub s.coinbase_amount (get_current_block_reward chain)) ≤ mkRat 1 1000000000) then
          (.error "Coinbase must equal current reward", s.db)
        else if s.total_fees > 0 then
          match block.transactions.find? (fun tx => tx.sender = "coinbase") with
          | none => (.error "Cannot determine miner address", s.db)
          | some cb =>
            if cb.recipient = "" then
              (.error "Cannot determine miner address", s.db)
            else if block.transactions.any (fun tx =>
                tx.sender = "miners_pool" ∧ tx.recipient = cb.recipient ∧
                ratAbs (ratSub tx.amount s.total_fees) < mkRat 1 1000000000) then
              (.ok (), s.db)
            else
              (.error "miners_pool fee payout to miner missing or incorrect", s.db)
        else (.ok (), s.db)

/-- `verify_blockchain` of `app/core/blockchain.py`: nonempty, every block's
`hash` field matches its recomputed digest, every later block links to its
predecessor's hash. -/
def verify_blockchain (P : EmbParams) (chain : List Block) : Bool × String :=
  match chain with
  | [] => (false, "chain must be a non-empty list")
  | b :: rest =>
    if b.hash ≠ hash_block P b then (false, "hash mismatch")
    else verifyFrom b rest
where
  verifyFrom (prev : Block) : List Block → Bool × String
    | [] => (true, "ok")
    | b :: rest =>
      if b.hash ≠ hash_block P b then (false, "hash mismatch")
      else if b.prev_hash ≠ prev.hash then (false, "prev_hash mismatch")
      else verifyFrom b rest

/-! ### `app/core/difficulty_adjuster.py` -/

def TARGET_BLOCK_TIME : Nat := 60

def ADJUSTMENT_INTERVAL : Nat := 10

def MIN_DIFFICULTY : Nat := 1

def MAX_DIFFICULTY : Nat := 10

/-- Count of leading ASCII `'0'` characters of a string (the counting loop
of `_get_current_difficulty`). -/
def leading_zero_count (s : String) : Nat :=
  go s.data
where
  go : List Char → Nat
    | [] => 0
    | c :: cs => if c = '0' then go cs + 1 else 0

/-- `DifficultyAdjuster._get_current_difficulty`: leading zeros of the last
block's hash, clamped to `[MIN_DIFFICULTY, MAX_DIFFICULTY]`; `3` on an empty
chain. -/
def get_current_difficulty_of_chain (chain : List Block) : Nat :=
  match chain.getLast? with
  | none => 3
  | some b => max MIN_DIFFICULTY (min MAX_DIFFICULTY (leading_zero_count b.hash))

/-- `DifficultyAdjuster.calculate_difficulty`: default 3 up to one block;
hash-derived below the window or off the adjustment boundary; otherwise a
ratio test over the last `ADJUSTMENT_INTERVAL` blocks (with the ratio forced
to `1.0` when the observed interval is not positive). -/
def calculate_difficulty (chain : List Block) : Nat :=
  if chain.length ≤ 1 then 3
  else if chain.length < ADJUSTMENT_INTERVAL then
    get_current_difficulty_of_chain chain
  else if chain.length % ADJUSTMENT_INTERVAL ≠ 0 then
    get_current_difficulty_of_chain chain
  else
    let recent := chain.drop (chain.length - ADJUSTMENT_INTERVAL)
    let time_taken : ℚ :=
      ratSub ((recent.getLast?.map (·.timestamp)).getD 0)
        ((recent.head?.map (·.timestamp)).getD 0)
    let expected : ℚ := ((TARGET_BLOCK_TIME * ADJUSTMENT_INTERVAL : Nat) : ℚ)
    let adjustment_ratio : ℚ := if time_taken > 0 then ratDiv expected time_taken else 1
    let current := get_current_difficulty_of_chain chain
    if adjustment_ratio > mkRat 3 2 then max MIN_DIFFICULTY (current - 1)
    else if adjustment_ratio < mkRat 67 100 then min MAX_DIFFICULTY (current + 1)
    else current

/-! ### `app/core/chain_protection.py` -/

def CHECKPOINT_INTERVAL : Nat := 100

def MAX_REORG_DEPTH : Nat := 10

/-- The checkpoint map `height → hash`, an insertion-ordered dict. -/
abbrev Checkpoints := List (Nat × String)

/-- Python dict assignment on the checkpoint map. -/
def Checkpoints.store (cps : Checkpoints) (k : Nat) (v : String) : Checkpoints :=
  if (List.find? (fun p => p.1 = k) cps).isSome then
    List.map (fun p => if p.1 = k then (k, v) else p) cps
  else
    cps ++ [(k, v)]

/-- `ChainProtection.create_checkpoint`: record `(index, hash)` when the
index is a multiple of the checkpoint interval. -/
def create_checkpoint (cps : Checkpoints) (block_index : Nat)
    (block_hash : String) : Checkpoints × Bool :=
  if block_index % CHECKPOINT_INTERVAL = 0 then
    (cps.store block_index block_hash, true)
  else (cps, false)

/-- `ChainProtection.validate_chain_against_checkpoints`: every recorded
checkpoint below the chain length must match the chain's hash there. -/
def validate_chain_against_checkpoints (cps : Checkpoints)
    (chain : List Block) : Bool × String :=
  match cps with
  | [] => (true, "Chain valid against checkpoints")
  | (index, expected) :: rest =>
    if index < chain.length then
      if ((chain[index]?.map (·.hash)).getD "") ≠ expected then
        (false, "Checkpoint violation")
      else validate_chain_against_checkpoints rest chain
    else validate_chain_against_checkpoints rest chain

/-- `ChainProtection.auto_checkpoint_new_block`: checkpoint the tip. -/
def auto_checkpoint_new_block (cps : Checkpoints) (chain : List Block) :
    Checkpoints × Bool :=
  match chain.getLast? with
  | none => (cps, false)
  | some b => create_checkpoint cps b.index b.hash

/-! ### `app/core/node_sync.py` -/

/-- Per-peer health record of `NodeHealth`. -/
structure PeerHealth where
  failures : Nat
  last_success : Option ℚ
  last_failure : Option ℚ
  status : String
deriving DecidableEq, Inhabited, Repr

def MAX_PEER_FAILURES : Nat := 3

/-- The health-tracking state of `NodeHealth`. -/
structure HealthState where
  peer_health : List (String × PeerHealth)
  failed_peers : List String
deriving DecidableEq, Inhabited, Repr

/-- Dict assignment on the peer-health map. -/
def healthStore (m : List (String × PeerHealth)) (k : String) (v : PeerHealth) :
    List (String × PeerHealth) :=
  if (List.find? (fun p => p.1 = k) m).isSome then
    List.map (fun p => if p.1 = k then (k, v) else p) m
  else
    m ++ [(k, v)]

def healthLookup (m : List (String × PeerHealth)) (k : String) :
    Option PeerHealth :=
  (List.find? (fun p => p.1 = k) m).map (·.2)

/-- `NodeHealth.mark_success`: reset failures, record the success time, set
status healthy, drop the peer from the failed set. -/
def mark_success (h : HealthState) (peer : String) (now : ℚ) : HealthState :=
  let rec' :=
    match healthLookup h.peer_health peer with
    | none => PeerHealth.mk 0 (some now) none "healthy"
    | some r => { r with failures := 0, last_success := some now, status := "healthy" }
  { peer_health := healthStore h.peer_health peer rec'
    failed_peers := h.failed_peers.filter (· ≠ peer) }

/-- `NodeHealth.mark_failure`: bump the failure count, record the failure
time; at `MAX_PEER_FAILURES` failures the peer becomes `failed`. -/
def mark_failure (h : HealthState) (peer : String) (now : ℚ) : HealthState :=
  let rec' :=
    match healthLookup h.peer_health peer with
    | none => PeerHealth.mk 1 none (some now) "degraded"
    | some r => { r with failures := r.failures + 1, last_failure := some now }
  if rec'.failures ≥ MAX_PEER_FAILURES then
    let rec'' := { rec' with status := "failed" }
    { peer_health := healthStore h.peer_health peer rec''
      failed_peers :=
        if h.failed_peers.contains peer then h.failed_peers
        else h.failed_peers ++ [peer] }
  else
    { peer_health := healthStore h.peer_health peer rec'
      failed_peers := h.failed_peers }

/-- `NodeHealth.is_healthy`. -/
def is_healthy (h : HealthState) (peer : String) : Bool :=
  if h.failed_peers.contains peer then false
  else
    match healthLookup h.peer_health peer with
    | none => true
    | some r => r.status ≠ "failed"

/-- The state of `RobustNodeSync` that `sync_with_peer` reads and writes. -/
structure SyncState where
  localChain : List Block
  health : HealthState
  sync_failures : Nat
deriving Inhabited

/-- What the peer returned for `POST /get_blockchain`: `none` models a
transport error / non-200 / missing body. -/
abbrev PeerResponse := Option (List Block)

/-- `RobustNodeSync.sync_with_peer`, with the HTTP fetch abstracted into
`resp`. It adopts any strictly longer chain that passes `verify_blockchain`
— no checkpoint or reorg-depth check is consulted anywhere on this path. -/
def sync_with_peer (P : EmbParams) (s : SyncState) (peer : String) (now : ℚ)
    (resp : PeerResponse) : SyncState × Bool :=
  match resp with
  | none => ({ s with health := mark_failure s.health peer now }, false)
  | some their_chain =>
    if their_chain.isEmpty then
      ({ s with health := mark_failure s.health peer now }, false)
    else if their_chain.length > s.localChain.length then
      if (verify_blockchain P their_chain).1 then
        ({ s with
            localChain := their_chain
            health := mark_success s.health peer now
            sync_failures := 0 }, true)
      else
        ({ s with health := mark_failure s.health peer now }, false)
    else
      ({ s with health := mark_success s.health peer now }, false)

/-! ### `app/core/mempool.py`

The priority queue holds Python tuples `(-fee, timestamp, txid, tx)` managed
by the CPython `heapq` module, which is modelled below verbatim
(`_siftdown`, `_siftup`, `heappush`, `heappop`, `heapify`). Tuple comparison
is lexicographic; the fourth component (a dict) is never reached for
comparison because txids in the pool are distinct. -/

/-- A priority-queue entry `(-fee, timestamp, txid, tx)`. -/
structure MEntry where
  negFee : ℚ
  ts : ℚ
  txid : String
  tx : Tx
deriving DecidableEq, Inhabited, Repr

/-- Python `<` on the queue tuples: lexicographic on `(-fee, ts, txid)`. -/
def entryLt (a b : MEntry) : Bool :=
  if a.negFee ≠ b.negFee then decide (a.negFee < b.negFee)
  else if a.ts ≠ b.ts then decide (a.ts < b.ts)
  else decide (a.txid < b.txid)

/-- `heap[i]` (in-bounds whenever CPython's preconditions hold). -/
def idx (l : List MEntry) (i : Nat) : MEntry :=
  (l[i]?).getD default

/-- The loop of CPython `heapq._siftdown(heap, startpos, pos)`, where
`newitem` is the item held out of position `pos`: bubble `newitem` up toward
the root. Structural recursion on a fuel counter: the loop position strictly
decreases, so `fuel = pos` iterations always suffice, and when the fuel runs
out the position is `0 ≤ startpos` and the fallback coincides with the loop
exit, so the fuel variant computes exactly the CPython loop. -/
def siftdownFuel : Nat → List MEntry → Nat → Nat → MEntry → List MEntry
  | 0, heap, _, pos, newitem => heap.set pos newitem
  | fuel + 1, heap, startpos, pos, newitem =>
    if startpos < pos then
      let parentpos := (pos - 1) / 2
      let parent := idx heap parentpos
      if entryLt newitem parent then
        siftdownFuel fuel (heap.set pos parent) startpos parentpos newitem
      else heap.set pos newitem
    else heap.set pos newitem

/-- CPython `heapq._siftdown`. -/
def siftdown (heap : List MEntry) (startpos pos : Nat) (newitem : MEntry) :
    List MEntry :=
  siftdownFuel pos heap startpos pos newitem

/-- The child CPython `_siftup` descends into: the right child when it
exists and the left child is not smaller. -/
def pick_child (heap : List MEntry) (endpos childpos : Nat) : Nat :=
  if childpos + 1 < endpos ∧ ¬ entryLt (idx heap childpos) (idx heap (childpos + 1)) then
    childpos + 1
  else childpos

theorem pick_child_ge (heap : List MEntry) (endpos childpos : Nat) :
    childpos ≤ pick_child heap endpos childpos := by
  unfold pick_child; split <;> omega

/-- The descending loop of CPython `heapq._siftup`, followed by the final
`heap[pos] = newitem; _siftdown(heap, startpos, pos)`. Fuel-structural as
above: the position strictly increases toward `endpos`, so `fuel = endpos`
iterations always suffice. -/
def siftupFuel : Nat → Nat → Nat → MEntry → List MEntry → Nat → List MEntry
  | 0, _, startpos, newitem, heap, pos =>
    siftdown (heap.set pos newitem) startpos pos newitem
  | fuel + 1, endpos, startpos, newitem, heap, pos =>
    if 2 * pos + 1 < endpos then
      let cp := pick_child heap endpos (2 * pos + 1)
      siftupFuel fuel endpos startpos newitem (heap.set pos (idx heap cp)) cp
    else
      siftdown (heap.set pos newitem) startpos pos newitem

/-- CPython `heapq._siftup(heap, pos)`. -/
def siftup (heap : List MEntry) (pos : Nat) : List MEntry :=
  siftupFuel heap.length heap.length pos (idx heap pos) heap pos

/-- CPython `heapq.heappush`. -/
def heappush (heap : List MEntry) (item : MEntry) : List MEntry :=
  siftdown (heap ++ [item]) 0 heap.length item

/-- CPython `heapq.heappop`: pop the last element; if the heap is still
nonempty, the root is returned and the last element is sifted down from the
root position. -/
def heappop (heap : List MEntry) : Option (MEntry × List MEntry) :=
  match heap.getLast? with
  | none => none
  | some lastelt =>
    match heap.dropLast with
    | [] => some (lastelt, [])
    | r0 :: rest => some (r0, siftup ((r0 :: rest).set 0 lastelt) 0)

/-- CPython `heapq.heapify`. -/
def heapify (x : List MEntry) : List MEntry :=
  (List.range (x.length / 2)).reverse.foldl (fun h i => siftup h i) x

/-- The mutable state of `AdvancedMempool`. -/
structure MempoolState where
  max_size : Nat
  max_tx_age : ℚ
  priority_queue : List MEntry
  tx_index : List (String × Tx)
  total_received : Nat
  total_rejected : Nat
  total_expired : Nat
deriving Inhabited

/-- `AdvancedMempool(max_size, max_tx_age)` constructor. -/
def mkMempool (max_size : Nat) (max_tx_age : ℚ) : MempoolState :=
  ⟨max_size, max_tx_age, [], [], 0, 0, 0⟩

/-- `txid in self.tx_index`. -/
def txIndexLookup (m : List (String × Tx)) (k : String) : Option Tx :=
  (List.find? (fun p => p.1 = k) m).map (·.2)

/-- Dict assignment `self.tx_index[txid] = tx`. -/
def txIndexStore (m : List (String × Tx)) (k : String) (v : Tx) :
    List (String × Tx) :=
  if (List.find? (fun p => p.1 = k) m).isSome then
    List.map (fun p => if p.1 = k then (k, v) else p) m
  else
    m ++ [(k, v)]

/-- `del self.tx_index[txid]` (keys are unique by construction). -/
def txIndexErase (m : List (String × Tx)) (k : String) : List (String × Tx) :=
  m.filter (fun p => p.1 ≠ k)

/-- The final "add to priority queue" step of `add_transaction`. -/
def mempoolPush (st : MempoolState) (tx : Tx) : MempoolState × Bool × String :=
  ({ st with
      priority_queue := heappush st.priority_queue ⟨-tx.fee, tx.timestamp, tx.txid, tx⟩
      tx_index := txIndexStore st.tx_index tx.txid tx },
    true, "Added to mempool")

/-- `AdvancedMempool.add_transaction`. At capacity the code reads
`self.priority_queue[0]` — the ROOT of a min-heap ordered by `-fee`, i.e.
the entry with the HIGHEST fee — as "the lowest fee transaction", compares
the incoming fee against it and evicts it. (The structure-validation step is
vacuous in the typed model.) -/
def add_transaction (st₀ : MempoolState) (now : ℚ) (tx : Tx) :
    MempoolState × Bool × String :=
  let st := { st₀ with total_received := st₀.total_received + 1 }
  if (txIndexLookup st.tx_index tx.txid).isSome then
    (st, false, "Transaction already in mempool")
  else if ratSub now tx.timestamp > st.max_tx_age then
    ({ st with total_rejected := st.total_rejected + 1 }, false, "Transaction too old")
  else if st.priority_queue.length ≥ st.max_size then
    match st.priority_queue with
    | [] => mempoolPush st tx
    | root :: _ =>
      let lowest_fee := -root.negFee
      if tx.fee ≤ lowest_fee then
        ({ st with total_rejected := st.total_rejected + 1 },
          false, "Mempool full - fee too low")
      else
        match heappop st.priority_queue with
        | none => mempoolPush st tx
        | some (removed, pq') =>
          mempoolPush
            { st with
                priority_queue := pq'
                tx_index := txIndexErase st.tx_index removed.txid } tx
  else
    mempoolPush st tx

/-- `AdvancedMempool.remove_transaction`: `False` and no change when the
txid is absent; otherwise drop it from the index, filter it out of the
queue and re-heapify. -/
def remove_transaction (st : MempoolState) (txid : String) :
    MempoolState × Bool :=
  if (txIndexLookup st.tx_index txid).isNone then (st, false)
  else
    ({ st with
        tx_index := txIndexErase st.tx_index txid
        priority_queue := heapify (st.priority_queue.filter (fun e => e.txid ≠ txid)) },
      true)

/-- `AdvancedMempool.remove_transactions`. -/
def remove_transactions (st : MempoolState) (txids : List String) : MempoolState :=
  txids.foldl (fun s t => (remove_transaction s t).1) st

/-- `AdvancedMempool._remove_expired`. -/
def remove_expired (st : MempoolState) (now : ℚ) : MempoolState :=
  let expired := (st.priority_queue.filter (fun e => ratSub now e.ts > st.max_tx_age)).map (·.txid)
  let st' := expired.foldl (fun s t => (remove_transaction s t).1) st
  { st' with total_expired := st'.total_expired + expired.length }

/-- Python's `sorted(queue, key=lambda x: x[0])` is a stable sort on the
`-fee` component. Stable sorting under a total preorder has a unique
result, so it is modelled extensionally by a stable insertion sort that
places each element after all earlier elements with key `≤` its own. -/
def insertByNegFee (x : MEntry) : List MEntry → List MEntry
  | [] => [x]
  | y :: ys => if x.negFee < y.negFee then x :: y :: ys else y :: insertByNegFee x ys

/-- Stable sort of the queue by ascending `-fee` (descending fee). -/
def pySortByNegFee (l : List MEntry) : List MEntry :=
  l.foldl (fun acc x => insertByNegFee x acc) []

/-- `AdvancedMempool.get_transactions_for_mining`: purge expired entries,
then return up to `max_count` transactions sorted by fee (key `x[0]` only —
ties keep the heap's internal order, the sort being stable). -/
def get_transactions_for_mining (st : MempoolState) (now : ℚ)
    (max_count : Nat) : List Tx × MempoolState :=
  let st' := remove_expired st now
  let sorted := pySortByNegFee st'.priority_queue
  ((sorted.take max_count).map (·.tx), st')

/-- `AdvancedMempool.get_size`. -/
def get_size (st : MempoolState) : Nat :=
  st.priority_queue.length

/-- `AdvancedMempool.clear`. -/
def mempool_clear (st : MempoolState) : MempoolState :=
  { st with priority_queue := [], tx_index := [] }

/-- One observable mempool operation, for invariant statements quantified
over operation sequences. -/
inductive MempoolOp where
  | add (now : ℚ) (tx : Tx)
  | remove (txid : String)
  | removeMany (txids : List String)
  | removeExpired (now : ℚ)
  | clear

/-- Apply one operation (discarding the returned verdicts). -/
def applyOp (st : MempoolState) : MempoolOp → MempoolState
  | .add now tx => (add_transaction st now tx).1
  | .remove txid => (remove_transaction st txid).1
  | .removeMany txids => remove_transactions st txids
  | .removeExpired now => remove_expired st now
  | .clear => mempool_clear st

/-- Run a sequence of operations from a given state. -/
def runOps (st : MempoolState) (ops : List MempoolOp) : MempoolState :=
  ops.foldl applyOp st

/-! ### `app/main.py` — the `/submit_block` handler -/

/-- The node state touched by `http_submit_block`: the in-memory chain, the
persisted copy (`save_blockchain`), the legacy pending list, the advanced
mempool, the checkpoint map and the validation-record store. -/
structure NodeState where
  chain : List Block
  store : List Block
  pending_txs : List Tx
  mempool : MempoolState
  checkpoints : Checkpoints
  db : Db

/-- Response of `/submit_block`. -/
inductive SubmitResult where
  | rejected (msg : String)
  | checkpointViolation
  | accepted (index : Nat) (current_difficulty : Nat)
deriving DecidableEq, Repr

/-- `http_submit_block` of `app/main.py`: validate, then append and persist,
then auto-checkpoint, then validate the (already grown and saved) chain
against the checkpoints — a violation returns an error response without
undoing the append; only on success are mined transactions purged. -/
def http_submit_block (P : EmbParams) (st : NodeState) (now : ℚ)
    (block : Block) : NodeState × SubmitResult :=
  match validate_block P st.chain st.pending_txs st.db now block with
  | (.error msg, db') => ({ st with db := db' }, .rejected msg)
  | (.ok _, db') =>
    let chain' := st.chain ++ [block]
    let cps' := (auto_checkpoint_new_block st.checkpoints chain').1
    let st1 := { st with chain := chain', store := chain', checkpoints := cps', db := db' }
    if ¬ (validate_chain_against_checkpoints cps' chain').1 then
      (st1, .checkpointViolation)
    else
      let mined := (block.transactions.filter
        (fun tx => tx.sender ≠ "coinbase" ∧ tx.sender ≠ "miners_pool")).map (·.txid)
      ({ st1 with
          pending_txs := st1.pending_txs.filter (fun t => ¬ mined.contains t.txid)
          mempool := remove_transactions st1.mempool mined },
        .accepted block.index (calculate_difficulty chain'))

/-! ## Derived views used in theorem statements -/

/-- The coinbase transactions of a transaction list. -/
def coinbaseTxs (txs : List Tx) : List Tx :=
  txs.filter (fun tx => tx.sender = "coinbase")

/-- The non-system (user) transactions of a transaction list. -/
def userTxs (txs : List Tx) : List Tx :=
  txs.filter (fun tx => tx.sender ≠ "coinbase" ∧ tx.sender ≠ "miners_pool")

/-- `F`: the summed fees of the non-system transactions. -/
def feesSum (txs : List Tx) : ℚ :=
  ((userTxs txs).map (·.fee)).sum

/-! ## Structure of successful block validation -/

/-- On success, the transaction loop of `validate_block` has counted the
coinbase transactions, summed their amounts, and summed the fees of the
non-system transactions. -/
theorem scan_txs_ok_spec (P : EmbParams) (chain : List Block)
    (pending : List Tx) (now : ℚ) (txs : List Tx) :
    ∀ (s s' : TxScan), scan_txs P chain pending now txs s = .ok s' →
      s'.coinbase_count = s.coinbase_count + (coinbaseTxs txs).length ∧
      s'.coinbase_amount = s.coinbase_amount + ((coinbaseTxs txs).map (·.amount)).sum ∧
      s'.total_fees = s.total_fees + ((userTxs txs).map (·.fee)).sum := by
  induction txs with
  | nil =>
    intro s s' h
    simp only [scan_txs] at h
    cases h
    simp [coinbaseTxs, userTxs]
  | cons tx rest ih =>
    intro s s' h
    simp only [scan_txs] at h
    split at h
    · exact absurd h (by simp)
    next hdup =>
      split at h
      next hcb =>
        obtain ⟨e1, e2, e3⟩ := ih _ _ h
        refine ⟨?_, ?_, ?_⟩
        · rw [e1]; simp [coinbaseTxs, List.filter_cons, hcb]; omega
        · rw [e2]; simp [coinbaseTxs, List.filter_cons, hcb, ratAdd_eq_add]; ring
        · rw [e3]; simp [userTxs, List.filter_cons, hcb]
      next hcb =>
        split at h
        next hmp =>
          obtain ⟨e1, e2, e3⟩ := ih _ _ h
          refine ⟨?_, ?_, ?_⟩
          · rw [e1]; simp [coinbaseTxs, List.filter_cons, hcb, hmp]
          · rw [e2]; simp [coinbaseTxs, List.filter_cons, hcb, hmp]
          · rw [e3]; simp [userTxs, List.filter_cons, hcb, hmp]
        next hmp =>
          split at h
          · exact absurd h (by simp)
          · obtain ⟨e1, e2, e3⟩ := ih _ _ h
            refine ⟨?_, ?_, ?_⟩
            · rw [e1]; simp [coinbaseTxs, List.filter_cons, hcb, hmp]
            · rw [e2]; simp [coinbaseTxs, List.filter_cons, hcb, hmp]
            · rw [e3]; simp [userTxs, List.filter_cons, hcb, hmp, ratAdd_eq_add]; ring

/-- Anatomy of an accepted block: every check of `validate_block` that was
passed on the way to the `ok` verdict. -/
theorem validate_block_ok_anatomy (P : EmbParams) (chain : List Block)
    (pending : List Tx) (db : Db) (now : ℚ) (block : Block)
    (hok : (validate_block P chain pending db now block).1 = .ok ()) :
    ∃ s : TxScan,
      scan_txs P chain pending now block.transactions ⟨0, 0, 0, [], db⟩ = .ok s ∧
      block.hash = hash_block P block ∧
      str_startswith (hash_block P block) (zeros SETTINGS_DIFFICULTY) = true ∧
      s.coinbase_count = 1 ∧
      ratAbs (ratSub s.coinbase_amount (get_current_block_reward chain)) ≤ mkRat 1 1000000000 ∧
      (s.total_fees > 0 →
        ∃ cb, block.transactions.find? (fun tx => tx.sender = "coinbase") = some cb ∧
          cb.recipient ≠ "" ∧
          block.transactions.any (fun tx =>
            tx.sender = "miners_pool" ∧ tx.recipient = cb.recipient ∧
            ratAbs (ratSub tx.amount s.total_fees) < mkRat 1 1000000000) = true) := by
  unfold validate_block at hok
  cases hl : link_check chain block with
  | error e => rw [hl] at hok; simp at hok
  | ok u =>
    rw [hl] at hok
    dsimp only at hok
    by_cases hh : block.hash = hash_block P block
    · rw [if_neg (not_not_intro hh)] at hok
      by_cases hsw : str_startswith (hash_block P block) (zeros SETTINGS_DIFFICULTY) = true
      · rw [if_neg (not_not_intro hsw)] at hok
        cases hscan : scan_txs P chain pending now block.transactions ⟨0, 0, 0, [], db⟩ with
        | error p => rw [hscan] at hok; obtain ⟨e, db'⟩ := p; simp at hok
        | ok s =>
          rw [hscan] at hok
          dsimp only at hok
          by_cases hcc : s.coinbase_count = 1
          · rw [if_neg (not_not_intro hcc)] at hok
            by_cases hamt : ratAbs (ratSub s.coinbase_amount (get_current_block_reward chain)) ≤ mkRat 1 1000000000
            · rw [if_neg (not_not_intro hamt)] at hok
              by_cases hf : s.total_fees > 0
              · rw [if_pos hf] at hok
                cases hfind : block.transactions.find? (fun tx => tx.sender = "coinbase") with
                | none => rw [hfind] at hok; simp at hok
                | some cb =>
                  rw [hfind] at hok
                  dsimp only at hok
                  by_cases hrec : cb.recipient = ""
                  · rw [if_pos hrec] at hok; simp at hok
                  · rw [if_neg hrec] at hok
                    by_cases hany : block.transactions.any (fun tx =>
                        tx.sender = "miners_pool" ∧ tx.recipient = cb.recipient ∧
                        ratAbs (ratSub tx.amount s.total_fees) < mkRat 1 1000000000) = true
                    · exact ⟨s, rfl, hh, hsw, hcc, hamt,
                        fun _ => ⟨cb, rfl, hrec, hany⟩⟩
                    · rw [if_neg (by simpa using hany)] at hok; simp at hok
              · rw [if_neg hf] at hok
                exact ⟨s, rfl, hh, hsw, hcc, hamt, fun h => absurd h hf⟩
            · rw [if_pos (by simpa using hamt)] at hok; simp at hok
          · rw [if_pos hcc] at hok; simp at hok
      · rw [if_pos (by simpa using hsw)] at hok; simp at hok
    · rw [if_pos (by simpa using hh)] at hok; simp at hok

/-! ## C1 — block reward used by validation -/

/-- Claim C1 (counterexample): at chain height 36 000 000 the reward used by
validation is `50 / 2^20 = 25/524288`, while the claimed formula — floored at
`0.0001` — yields `1/10000`; the code floors at `0.00001`, so the two differ. -/
theorem C1_counterexample :
    get_current_block_reward (List.replicate 36000000 (default : Block)) = 25/524288 ∧
    get_current_block_reward (List.replicate 36000000 (default : Block)) ≠
      max (STARTING_BLOCK_REWARD / 2 ^ (36000000 / HALVING_INTERVAL)) (1/10000) := by
  have hval : get_current_block_reward (List.replicate 36000000 (default : Block)) =
      25/524288 := by
    rw [get_current_block_reward_eq, List.length_replicate]
    rw [show STARTING_BLOCK_REWARD = 50 from rfl, show HALVING_INTERVAL = 1800000 from rfl]
    have h20 : (36000000 : Nat) / 1800000 = 20 := by norm_num
    rw [h20, max_eq_left (by norm_num)]
    norm_num
  refine ⟨hval, ?_⟩
  rw [hval]
  rw [show STARTING_BLOCK_REWARD = 50 from rfl, show HALVING_INTERVAL = 1800000 from rfl]
  have h20 : (36000000 : Nat) / 1800000 = 20 := by norm_num
  rw [h20, max_eq_right (by norm_num)]
  norm_num

/-- Claim C1 (amended): every block accepted by `validate_block` over a chain
of height `h` carries exactly one coinbase transaction, whose amount is within
`10^-9` of `STARTING_BLOCK_REWARD / 2^(h / HALVING_INTERVAL)` floored at
`0.00001` (the height-based variant; the floor in the code is `0.00001`, not
the claimed `0.0001`). -/
theorem C1_block_reward_amended (P : EmbParams) (chain : List Block)
    (pending : List Tx) (db : Db) (now : ℚ) (block : Block)
    (hok : (validate_block P chain pending db now block).1 = .ok ()) :
    (coinbaseTxs block.transactions).length = 1 ∧
    |((coinbaseTxs block.transactions).map (·.amount)).sum -
        max (STARTING_BLOCK_REWARD / 2 ^ (chain.length / HALVING_INTERVAL))
          (1/100000)| ≤ 1/1000000000 := by
  obtain ⟨s, hscan, -, -, hcc, hamt, -⟩ :=
    validate_block_ok_anatomy P chain pending db now block hok
  obtain ⟨e1, e2, e3⟩ := scan_txs_ok_spec P chain pending now block.transactions _ _ hscan
  constructor
  · simp only [e1] at hcc ⊢; omega
  · have hsum : s.coinbase_amount = ((coinbaseTxs block.transactions).map (·.amount)).sum := by
      rw [e2]; ring
    rw [← hsum]
    rw [ratSub_eq_sub, ratAbs_eq_abs, get_current_block_reward_eq, tol_eq] at hamt
    exact hamt

/-- Witness block for C1: a genesis-shaped block carrying the full initial
reward, accepted over the empty chain. -/
def cw1_hash : String := String.mk ('0' :: '0' :: '0' :: List.replicate 61 'a')

def cw1_tx : Tx :=
  { sender := "coinbase", recipient := "PHNowner1", amount := 50, fee := 0,
    timestamp := 0, nonce := none,
    txid := String.mk (List.replicate 64 'a'), signature := "genesis" }

def cw1_block : Block :=
  { index := 0, timestamp := 0, transactions := [cw1_tx],
    prev_hash := zeros 64, nonce := 0, hash := cw1_hash }

def cw1_params : EmbParams := ⟨fun _ => cw1_hash, fun _ => true, fun s => s⟩

/-- Claim C1 (witness): the amended theorem applied to a concrete accepted
block over the empty chain. -/
theorem C1_block_reward_amended_witness :
    (validate_block cw1_params [] [] [] 0 cw1_block).1 = .ok () ∧
    ((coinbaseTxs cw1_block.transactions).length = 1 ∧
      |((coinbaseTxs cw1_block.transactions).map (·.amount)).sum -
          max (STARTING_BLOCK_REWARD / 2 ^ (([] : List Block).length / HALVING_INTERVAL))
            (1/100000)| ≤ 1/1000000000) :=
  have h : (validate_block cw1_params [] [] [] 0 cw1_block).1 = .ok () := by rfl
  ⟨h, C1_block_reward_amended cw1_params [] [] [] 0 cw1_block h⟩

/-! ## C2 — proof-of-work difficulty used by validation -/

/-- A hash with exactly four leading zeros (for the chain tip). -/
def cx2_hash4 : String := String.mk ('0' :: '0' :: '0' :: '0' :: List.replicate 60 'b')

/-- A hash with exactly three leading zeros (for the candidate block). -/
def cx2_hash3 : String := String.mk ('0' :: '0' :: '0' :: List.replicate 61 'c')

def cx2_b0 : Block :=
  { index := 0, timestamp := 0, transactions := [], prev_hash := zeros 64,
    nonce := 0, hash := zeros 64 }

def cx2_b1 : Block :=
  { index := 1, timestamp := 60, transactions := [], prev_hash := zeros 64,
    nonce := 0, hash := cx2_hash4 }

def cx2_chain : List Block := [cx2_b0, cx2_b1]

def cx2_tx : Tx :=
  { sender := "coinbase", recipient := "PHNminer2", amount := 50, fee := 0,
    timestamp := 0, nonce := none,
    txid := String.mk (List.replicate 64 'd'), signature := "genesis" }

def cx2_block : Block :=
  { index := 2, timestamp := 120, transactions := [cx2_tx],
    prev_hash := cx2_hash4, nonce := 0, hash := cx2_hash3 }

def cx2_params : EmbParams := ⟨fun _ => cx2_hash3, fun _ => true, fun s => s⟩

/-- Claim C2 (counterexample): with the tip hash carrying four leading zeros,
the §4.6 dynamic difficulty for the next height is 4, yet `validate_block`
accepts a block whose hash has only three leading zeros — the proof-of-work
check uses the fixed `settings.DIFFICULTY`, not the dynamic difficulty. -/
theorem C2_counterexample :
    (validate_block cx2_params cx2_chain [] [] 0 cx2_block).1 = .ok () ∧
    calculate_difficulty cx2_chain = 4 ∧
    str_startswith cx2_block.hash (zeros (calculate_difficulty cx2_chain)) = false := by
  refine ⟨by rfl, by rfl, by rfl⟩

/-- Claim C2 (amended): every block accepted by `validate_block` satisfies
`B.hash = hash_block(B)` and `B.hash` begins with at least
`settings.DIFFICULTY` (the fixed configuration constant, default 3) ASCII
zeros; the dynamic §4.6 difficulty is reported to miners but never enforced
by block validation. -/
theorem C2_pow_static_difficulty (P : EmbParams) (chain : List Block)
    (pending : List Tx) (db : Db) (now : ℚ) (block : Block)
    (hok : (validate_block P chain pending db now block).1 = .ok ()) :
    block.hash = hash_block P block ∧
    str_startswith block.hash (zeros SETTINGS_DIFFICULTY) = true := by
  obtain ⟨s, -, hh, hsw, -⟩ := validate_block_ok_anatomy P chain pending db now block hok
  exact ⟨hh, by rwa [hh]⟩

/-- Claim C2 (witness): the amended theorem applied to the concrete accepted
block above. -/
theorem C2_pow_static_difficulty_witness :
    (validate_block cx2_params cx2_chain [] [] 0 cx2_block).1 = .ok () ∧
    (cx2_block.hash = hash_block cx2_params cx2_block ∧
      str_startswith cx2_block.hash (zeros SETTINGS_DIFFICULTY) = true) :=
  have h : (validate_block cx2_params cx2_chain [] [] 0 cx2_block).1 = .ok () := by rfl
  ⟨h, C2_pow_static_difficulty cx2_params cx2_chain [] [] 0 cx2_block h⟩

/-! ## C7 — the difficulty adjustment algorithm -/

def cx7_hash : String := String.mk ('0' :: '0' :: '0' :: List.replicate 61 'e')

/-- Ten blocks whose timestamps DECREASE (1000 down to 100): block
timestamps are never validated, so such a chain is reachable. -/
def cx7_chain : List Block :=
  [ ⟨0, 1000, [], zeros 64, 0, cx7_hash⟩,
    ⟨1, 900, [], zeros 64, 0, cx7_hash⟩,
    ⟨2, 800, [], zeros 64, 0, cx7_hash⟩,
    ⟨3, 700, [], zeros 64, 0, cx7_hash⟩,
    ⟨4, 600, [], zeros 64, 0, cx7_hash⟩,
    ⟨5, 500, [], zeros 64, 0, cx7_hash⟩,
    ⟨6, 400, [], zeros 64, 0, cx7_hash⟩,
    ⟨7, 300, [], zeros 64, 0, cx7_hash⟩,
    ⟨8, 200, [], zeros 64, 0, cx7_hash⟩,
    ⟨9, 100, [], zeros 64, 0, cx7_hash⟩ ]

/-- Claim C7 (counterexample): on a full adjustment boundary with a negative
observed interval, the claimed ratio `expected / elapsed` is negative and
hence `< 0.67`, so the claim prescribes an increment — but the code forces
the ratio to `1.0` whenever the interval is not positive and KEEPS the
difficulty. -/
theorem C7_counterexample :
    cx7_chain.length % ADJUSTMENT_INTERVAL = 0 ∧
    ADJUSTMENT_INTERVAL ≤ cx7_chain.length ∧
    ((TARGET_BLOCK_TIME * ADJUSTMENT_INTERVAL : Nat) : ℚ) /
        (((cx7_chain.getLast?.map (·.timestamp)).getD 0) -
          (((cx7_chain.drop (cx7_chain.length - ADJUSTMENT_INTERVAL)).head?.map
              (·.timestamp)).getD 0)) < 67/100 ∧
    calculate_difficulty cx7_chain = get_current_difficulty_of_chain cx7_chain ∧
    calculate_difficulty cx7_chain ≠
      min MAX_DIFFICULTY (get_current_difficulty_of_chain cx7_chain + 1) := by
  refine ⟨by rfl, by decide, ?_, by rfl, by decide⟩
  have h1 : (cx7_chain.getLast?.map (·.timestamp)).getD 0 = (100 : ℚ) := by rfl
  have h2 : ((cx7_chain.drop (cx7_chain.length - ADJUSTMENT_INTERVAL)).head?.map
      (·.timestamp)).getD 0 = (1000 : ℚ) := by rfl
  rw [h1, h2]
  norm_num [TARGET_BLOCK_TIME, ADJUSTMENT_INTERVAL]

/-- The §4.6 adjustment algorithm as the claim words it, amended with the
guard the code applies: when the observed interval is not positive the
ratio is taken as `1.0`, i.e. the difficulty is kept. Stated over plain
Mathlib arithmetic; compared against the source translation below. -/
def spec_difficulty (chain : List Block) : Nat :=
  if chain.length ≤ 1 then 3
  else
    let current := max MIN_DIFFICULTY (min MAX_DIFFICULTY
      (leading_zero_count ((chain.getLast?.map (·.hash)).getD "")))
    if chain.length < ADJUSTMENT_INTERVAL ∨ chain.length % ADJUSTMENT_INTERVAL ≠ 0 then
      current
    else
      let elapsed : ℚ :=
        ((chain.getLast?.map (·.timestamp)).getD 0) -
          ((chain[chain.length - ADJUSTMENT_INTERVAL]?.map (·.timestamp)).getD 0)
      if elapsed ≤ 0 then current
      else if ((TARGET_BLOCK_TIME * ADJUSTMENT_INTERVAL : Nat) : ℚ) / elapsed > 3/2 then
        max MIN_DIFFICULTY (current - 1)
      else if ((TARGET_BLOCK_TIME * ADJUSTMENT_INTERVAL : Nat) : ℚ) / elapsed < 67/100 then
        min MAX_DIFFICULTY (current + 1)
      else current

/-- Claim C7 (amended): `calculate_difficulty` computes exactly the claimed
algorithm — default 3 up to one block, hash-derived clamped difficulty off
the adjustment boundary, and the ratio test on the boundary — with the one
amendment that a non-positive observed interval keeps the difficulty. -/
theorem C7_difficulty_amended (chain : List Block) :
    calculate_difficulty chain = spec_difficulty chain := by
  unfold calculate_difficulty spec_difficulty
  dsimp only
  by_cases h1 : chain.length ≤ 1
  · simp [h1]
  · have hne : chain ≠ [] := by
      intro h; rw [h] at h1; simp at h1
    have hex : ∃ b, chain.getLast? = some b := by
      rcases chain.eq_nil_or_concat with rfl | ⟨l, b, rfl⟩
      · exact absurd rfl hne
      · exact ⟨b, by simp⟩
    obtain ⟨last, hlast⟩ := hex
    have hcur : get_current_difficulty_of_chain chain =
        max MIN_DIFFICULTY (min MAX_DIFFICULTY
          (leading_zero_count ((chain.getLast?.map (·.hash)).getD ""))) := by
      unfold get_current_difficulty_of_chain
      rw [hlast]
      simp
    rw [if_neg h1, if_neg h1]
    by_cases h2 : chain.length < ADJUSTMENT_INTERVAL
    · rw [if_pos h2, if_pos (Or.inl h2)]
      exact hcur
    · rw [if_neg h2]
      by_cases h3 : chain.length % ADJUSTMENT_INTERVAL = 0
      · rw [if_neg (not_not_intro h3),
          if_neg (show ¬(chain.length < ADJUSTMENT_INTERVAL ∨
            chain.length % ADJUSTMENT_INTERVAL ≠ 0) from by simp [h2, h3])]
        have hlen10 : ADJUSTMENT_INTERVAL ≤ chain.length := not_lt.mp h2
        have hdropLast : (chain.drop (chain.length - ADJUSTMENT_INTERVAL)).getLast? =
            chain.getLast? := by
          rw [List.getLast?_eq_getElem?, List.getLast?_eq_getElem?, List.getElem?_drop,
            List.length_drop]
          congr 1
          have hpos : 0 < ADJUSTMENT_INTERVAL := by decide
          omega
        have hdropHead : (chain.drop (chain.length - ADJUSTMENT_INTERVAL)).head? =
            chain[chain.length - ADJUSTMENT_INTERVAL]? := by
          rw [List.head?_drop]
        rw [hdropLast, hdropHead, ratSub_eq_sub]
        set elapsed : ℚ := ((chain.getLast?.map (·.timestamp)).getD 0) -
          ((chain[chain.length - ADJUSTMENT_INTERVAL]?.map (·.timestamp)).getD 0) with helap
        have h32 : (mkRat 3 2 : ℚ) = 3/2 := by rw [Rat.mkRat_eq_div]; norm_num
        have h67 : (mkRat 67 100 : ℚ) = 67/100 := by rw [Rat.mkRat_eq_div]; norm_num
        by_cases h4 : elapsed > 0
        · rw [if_pos h4,
            if_neg (show ¬(elapsed ≤ 0) from not_le.mpr h4),
            ratDiv_eq_div, h32, h67]
          exact if_congr Iff.rfl (by rw [hcur]) (if_congr Iff.rfl (by rw [hcur]) hcur)
        · rw [if_neg h4, if_pos (show elapsed ≤ 0 from not_lt.mp h4),
            if_neg (show ¬((1 : ℚ) > mkRat 3 2) from by rw [h32]; norm_num),
            if_neg (show ¬((1 : ℚ) < mkRat 67 100) from by rw [h67]; norm_num)]
          exact hcur
      · rw [if_pos h3, if_pos (Or.inr h3)]
        exact hcur

/-! ## C8 — the POUV timestamp window -/

/-- Claim C8: for a transaction with no prior validation record (and, in the
typed model, all required fields present), POUV rejects with the "future"
reason exactly when its timestamp exceeds `now + 60`, and — once not in the
future — with the "too old" reason exactly when `now - timestamp` exceeds
`3600`; in particular the boundaries `now + 60` and `now - 3600` pass both
checks. -/
theorem C8_pouv_timestamp_window (P : EmbParams) (chain : List Block)
    (pending : List Tx) (db : Db) (now : ℚ) (tx : Tx)
    (hdb : db.lookup tx.txid = none) :
    (((validate_transaction_pouv P chain pending db now tx).1 =
        .error .futureTimestamp) ↔ tx.timestamp > now + 60) ∧
    (tx.timestamp ≤ now + 60 →
      (((validate_transaction_pouv P chain pending db now tx).1 =
          .error .tooOld) ↔ now - tx.timestamp > 3600)) := by
  unfold validate_transaction_pouv
  rw [hdb]
  dsimp only
  rw [ratAdd_eq_add, ratSub_eq_sub]
  constructor
  · by_cases hf : tx.timestamp > now + 60
    · rw [if_pos hf]
      exact iff_of_true rfl hf
    · rw [if_neg hf]
      refine iff_of_false ?_ hf
      split
      · simp
      · split
        · simp
        · split
          · simp
          · split
            · simp
            · split
              · simp
              · split
                · simp
                · simp
  · intro hle
    rw [if_neg (not_lt.mpr hle)]
    by_cases ho : now - tx.timestamp > 3600
    · rw [if_pos ho]
      exact iff_of_true rfl ho
    · rw [if_neg ho]
      refine iff_of_false ?_ ho
      split
      · simp
      · split
        · simp
        · split
          · simp
          · split
            · simp
            · split
              · simp
              · simp

def cw8_tx : Tx :=
  { sender := "coinbase", recipient := "PHNsomeone", amount := 1, fee := 0,
    timestamp := 3660, nonce := none,
    txid := String.mk (List.replicate 64 'f'), signature := "genesis" }

def cw8_params : EmbParams := ⟨fun _ => "", fun _ => true, fun s => s⟩

/-- Claim C8 (witness): the window characterization applied at `now = 3600`
to a transaction stamped exactly `now + 60`. -/
theorem C8_pouv_timestamp_window_witness :
    (([] : Db).lookup cw8_tx.txid = none) ∧
    ((((validate_transaction_pouv cw8_params [] [] [] 3600 cw8_tx).1 =
        .error .futureTimestamp) ↔ cw8_tx.timestamp > 3600 + 60) ∧
      (cw8_tx.timestamp ≤ 3600 + 60 →
        (((validate_transaction_pouv cw8_params [] [] [] 3600 cw8_tx).1 =
            .error .tooOld) ↔ 3600 - cw8_tx.timestamp > 3600))) :=
  have h : ([] : Db).lookup cw8_tx.txid = none := rfl
  ⟨h, C8_pouv_timestamp_window cw8_params [] [] [] 3600 cw8_tx h⟩

/-! ## C3 — checkpoints and peer sync -/

def cx3_c0 : Block :=
  { index := 0, timestamp := 0, transactions := [], prev_hash := zeros 64,
    nonce := 0, hash := "c0hash" }

def cx3_c1 : Block :=
  { index := 1, timestamp := 60, transactions := [], prev_hash := "c0hash",
    nonce := 0, hash := "c1hash" }

/-- A candidate chain whose block 0 disagrees with the recorded checkpoint. -/
def cx3_candidate : List Block := [cx3_c0, cx3_c1]

/-- Checkpoints pinning height 0 to a hash the candidate does not have. -/
def cx3_cps : Checkpoints := [(0, "CHK0")]

def cx3_params : EmbParams :=
  ⟨fun core => if core.index = 0 then "c0hash" else "c1hash", fun _ => true, fun s => s⟩

def cx3_b0 : Block :=
  { index := 0, timestamp := 0, transactions := [], prev_hash := zeros 64,
    nonce := 0, hash := "CHK0" }

def cx3_state : SyncState :=
  { localChain := [cx3_b0], health := ⟨[], []⟩, sync_failures := 0 }

/-- Claim C3 (counterexample): the candidate contradicts the recorded
checkpoint at height 0, yet `sync_with_peer` adopts it (the local chain IS
replaced) and marks the peer healthy: the sync path never consults
`validate_chain_against_checkpoints`. -/
theorem C3_counterexample :
    (validate_chain_against_checkpoints cx3_cps cx3_candidate).1 = false ∧
    (sync_with_peer cx3_params cx3_state "peer1" 0 (some cx3_candidate)).2 = true ∧
    (sync_with_peer cx3_params cx3_state "peer1" 0
        (some cx3_candidate)).1.localChain = cx3_candidate ∧
    cx3_state.localChain ≠ cx3_candidate ∧
    is_healthy (sync_with_peer cx3_params cx3_state "peer1" 0
        (some cx3_candidate)).1.health "peer1" = true := by
  refine ⟨by rfl, by rfl, by rfl, by decide, by rfl⟩

/-- Claim C3 (amended): `sync_with_peer` adopts any strictly longer
candidate that passes `verify_blockchain` (hash integrity and linkage only)
and marks the peer successful; no checkpoint or reorg-depth check is
consulted anywhere on the sync path, so a candidate disagreeing with a
recorded checkpoint is adopted all the same. (Checkpoint validation runs
only inside the `/submit_block` handler.) -/
theorem C3_sync_ignores_checkpoints (P : EmbParams) (s : SyncState)
    (peer : String) (now : ℚ) (cand : List Block)
    (hlen : cand.length > s.localChain.length)
    (hver : (verify_blockchain P cand).1 = true) :
    (sync_with_peer P s peer now (some cand)).1.localChain = cand ∧
    (sync_with_peer P s peer now (some cand)).2 = true := by
  unfold sync_with_peer
  have hne : cand.isEmpty = false := by
    cases cand with
    | nil => simp at hlen
    | cons a l => rfl
  dsimp only
  rw [if_neg (show ¬(cand.isEmpty = true) from by simp [hne]),
    if_pos hlen, if_pos hver]
  exact ⟨rfl, rfl⟩

/-- Claim C3 (witness): the amended adoption theorem applied to the concrete
checkpoint-violating candidate. -/
theorem C3_sync_ignores_checkpoints_witness :
    (cx3_candidate.length > cx3_state.localChain.length ∧
      (verify_blockchain cx3_params cx3_candidate).1 = true) ∧
    ((sync_with_peer cx3_params cx3_state "peer1" 0
        (some cx3_candidate)).1.localChain = cx3_candidate ∧
      (sync_with_peer cx3_params cx3_state "peer1" 0 (some cx3_candidate)).2 = true) :=
  have h1 : cx3_candidate.length > cx3_state.localChain.length := by decide
  have h2 : (verify_blockchain cx3_params cx3_candidate).1 = true := by rfl
  ⟨⟨h1, h2⟩, C3_sync_ignores_checkpoints cx3_params cx3_state "peer1" 0 cx3_candidate h1 h2⟩

/-! ## C9 — `/submit_block` appends before checkpoint validation -/

/-- Claim C9: a block that passes `validate_block` is appended to the chain
and persisted BEFORE the chain is validated against the checkpoints; if that
validation then fails, the handler returns an error response but the
appended block is kept in both the in-memory chain and the persisted store
(and the pending list and mempool are left unpurged) — the error path is
not atomic. -/
theorem C9_submit_block_not_atomic (P : EmbParams) (st : NodeState) (now : ℚ)
    (block : Block)
    (hok : (validate_block P st.chain st.pending_txs st.db now block).1 = .ok ())
    (hcp : (validate_chain_against_checkpoints
        (auto_checkpoint_new_block st.checkpoints (st.chain ++ [block])).1
        (st.chain ++ [block])).1 = false) :
    (http_submit_block P st now block).2 = .checkpointViolation ∧
    (http_submit_block P st now block).1.chain = st.chain ++ [block] ∧
    (http_submit_block P st now block).1.store = st.chain ++ [block] ∧
    (http_submit_block P st now block).1.pending_txs = st.pending_txs ∧
    (http_submit_block P st now block).1.mempool = st.mempool := by
  unfold http_submit_block
  have heta : validate_block P st.chain st.pending_txs st.db now block =
      (Except.ok (), (validate_block P st.chain st.pending_txs st.db now block).2) :=
    Prod.ext_iff.mpr ⟨hok, rfl⟩
  rw [heta]
  dsimp only
  rw [if_pos (show ¬((validate_chain_against_checkpoints
      (auto_checkpoint_new_block st.checkpoints (st.chain ++ [block])).1
      (st.chain ++ [block])).1 = true) from by simp [hcp])]
  exact ⟨rfl, rfl, rfl, rfl, rfl⟩

def cw9_b0 : Block :=
  { index := 0, timestamp := 0, transactions := [], prev_hash := zeros 64,
    nonce := 0, hash := "b0hash" }

def cw9_tx : Tx :=
  { sender := "coinbase", recipient := "PHNminer9", amount := 50, fee := 0,
    timestamp := 0, nonce := none,
    txid := String.mk (List.replicate 64 'g'), signature := "genesis" }

def cw9_block : Block :=
  { index := 1, timestamp := 60, transactions := [cw9_tx],
    prev_hash := "b0hash", nonce := 0,
    hash := String.mk ('0' :: '0' :: '0' :: List.replicate 61 'h') }

def cw9_params : EmbParams :=
  ⟨fun _ => String.mk ('0' :: '0' :: '0' :: List.replicate 61 'h'),
    fun _ => true, fun s => s⟩

/-- Node state whose checkpoint for height 0 already disagrees with the
local chain (reachable because peer sync replaces chains without consulting
checkpoints). -/
def cw9_state : NodeState :=
  { chain := [cw9_b0], store := [cw9_b0], pending_txs := [],
    mempool := mkMempool 10000 3600, checkpoints := [(0, "OTHER")], db := [] }

/-- Claim C9 (witness): the non-atomicity theorem applied to a concrete
state with a pre-existing checkpoint mismatch and a concrete valid block. -/
theorem C9_submit_block_not_atomic_witness :
    ((validate_block cw9_params cw9_state.chain cw9_state.pending_txs
        cw9_state.db 0 cw9_block).1 = .ok () ∧
      (validate_chain_against_checkpoints
        (auto_checkpoint_new_block cw9_state.checkpoints
          (cw9_state.chain ++ [cw9_block])).1
        (cw9_state.chain ++ [cw9_block])).1 = false) ∧
    ((http_submit_block cw9_params cw9_state 0 cw9_block).2 = .checkpointViolation ∧
      (http_submit_block cw9_params cw9_state 0 cw9_block).1.chain =
        cw9_state.chain ++ [cw9_block] ∧
      (http_submit_block cw9_params cw9_state 0 cw9_block).1.store =
        cw9_state.chain ++ [cw9_block] ∧
      (http_submit_block cw9_params cw9_state 0 cw9_block).1.pending_txs =
        cw9_state.pending_txs ∧
      (http_submit_block cw9_params cw9_state 0 cw9_block).1.mempool =
        cw9_state.mempool) :=
  have h1 : (validate_block cw9_params cw9_state.chain cw9_state.pending_txs
      cw9_state.db 0 cw9_block).1 = .ok () := by rfl
  have h2 : (validate_chain_against_checkpoints
      (auto_checkpoint_new_block cw9_state.checkpoints
        (cw9_state.chain ++ [cw9_block])).1
      (cw9_state.chain ++ [cw9_block])).1 = false := by rfl
  ⟨⟨h1, h2⟩, C9_submit_block_not_atomic cw9_params cw9_state 0 cw9_block h1 h2⟩

/-! ## C5 — the miners_pool fee payout -/

/-- Claim C5 (amended): every accepted block whose non-system fees sum to
`F > 0` contains AT LEAST ONE `miners_pool` transaction paying `F` (within
`10^-9`) to the coinbase recipient; `validate_block` only searches for one
matching payout and never rejects additional `miners_pool` transactions, so
neither "exactly one" nor "payout to any other address is rejected" holds. -/
theorem C5_fee_payout_amended (P : EmbParams) (chain : List Block)
    (pending : List Tx) (db : Db) (now : ℚ) (block : Block)
    (hok : (validate_block P chain pending db now block).1 = .ok ())
    (hf : feesSum block.transactions > 0) :
    ∃ cb ∈ block.transactions, cb.sender = "coinbase" ∧
      ∃ tx ∈ block.transactions, tx.sender = "miners_pool" ∧
        tx.recipient = cb.recipient ∧
        |tx.amount - feesSum block.transactions| < 1/1000000000 := by
  obtain ⟨s, hscan, -, -, -, -, hpay⟩ :=
    validate_block_ok_anatomy P chain pending db now block hok
  obtain ⟨-, -, e3⟩ := scan_txs_ok_spec P chain pending now block.transactions _ _ hscan
  have hsF : s.total_fees = feesSum block.transactions := by
    rw [e3]; simp [feesSum]
  obtain ⟨cb, hfind, -, hany⟩ := hpay (by rw [hsF]; exact hf)
  have hcbmem : cb ∈ block.transactions := List.mem_of_find?_eq_some hfind
  have hcbsender : cb.sender = "coinbase" := by
    have := List.find?_some hfind
    simpa using this
  obtain ⟨tx, htxmem, hprop⟩ := List.any_eq_true.mp hany
  have hprop' := of_decide_eq_true hprop
  obtain ⟨hsender, hrecip, habs⟩ := hprop'
  rw [ratSub_eq_sub, ratAbs_eq_abs, tol_eq, hsF] at habs
  exact ⟨cb, hcbmem, hcbsender, tx, htxmem, hsender, hrecip, habs⟩

/-- Funding block: gives `PHNalice` a balance of 100. -/
def cx5_fund_tx : Tx :=
  { sender := "coinbase", recipient := "PHNalice", amount := 100, fee := 0,
    timestamp := 0, nonce := none,
    txid := String.mk (List.replicate 64 'i'), signature := "genesis" }

def cx5_genesis : Block :=
  { index := 0, timestamp := 0, transactions := [cx5_fund_tx],
    prev_hash := zeros 64, nonce := 0, hash := "g5hash" }

def cx5_chain : List Block := [cx5_genesis]

def cx5_cb : Tx :=
  { sender := "coinbase", recipient := "PHNminerX", amount := 50, fee := 0,
    timestamp := 100, nonce := none,
    txid := String.mk (List.replicate 64 'j'), signature := "genesis" }

def cx5_user : Tx :=
  { sender := "PHNalice", recipient := "PHNbob", amount := 10, fee := 1,
    timestamp := 100, nonce := some 7,
    txid := String.mk (List.replicate 64 'k'), signature := "sig" }

def cx5_pool1 : Tx :=
  { sender := "miners_pool", recipient := "PHNminerX", amount := 1, fee := 0,
    timestamp := 100, nonce := none,
    txid := String.mk (List.replicate 64 'l'), signature := "genesis" }

/-- A second `miners_pool` transaction, directed to a different address. -/
def cx5_pool2 : Tx :=
  { sender := "miners_pool", recipient := "PHNother", amount := 7, fee := 0,
    timestamp := 100, nonce := none,
    txid := String.mk (List.replicate 64 'm'), signature := "genesis" }

def cx5_block : Block :=
  { index := 1, timestamp := 100,
    transactions := [cx5_cb, cx5_user, cx5_pool1, cx5_pool2],
    prev_hash := "g5hash", nonce := 0,
    hash := String.mk ('0' :: '0' :: '0' :: List.replicate 61 'n') }

def cx5_params : EmbParams :=
  ⟨fun _ => String.mk ('0' :: '0' :: '0' :: List.replicate 61 'n'),
    fun _ => true, fun s => s⟩

/-- Claim C5 (counterexample): a block containing TWO `miners_pool`
transactions — one matching payout to the miner and one paying a different
address — is accepted by `validate_block`, refuting "exactly one" and
"payout to any other address is rejected". -/
theorem C5_counterexample :
    (validate_block cx5_params cx5_chain [] [] 100 cx5_block).1 = .ok () ∧
    (cx5_block.transactions.filter (fun tx => tx.sender = "miners_pool")).length = 2 ∧
    feesSum cx5_block.transactions = 1 := by
  refine ⟨by rfl, by rfl, ?_⟩
  simp [feesSum, userTxs, cx5_block, cx5_cb, cx5_user, cx5_pool1, cx5_pool2]

/-- Witness block: like the counterexample but with the single payout. -/
def cw5_block : Block :=
  { index := 1, timestamp := 100,
    transactions := [cx5_cb, cx5_user, cx5_pool1],
    prev_hash := "g5hash", nonce := 0,
    hash := String.mk ('0' :: '0' :: '0' :: List.replicate 61 'n') }

/-- Claim C5 (witness): the amended payout theorem applied to a concrete
accepted fee-carrying block. -/
theorem C5_fee_payout_amended_witness :
    ((validate_block cx5_params cx5_chain [] [] 100 cw5_block).1 = .ok () ∧
      feesSum cw5_block.transactions > 0) ∧
    (∃ cb ∈ cw5_block.transactions, cb.sender = "coinbase" ∧
      ∃ tx ∈ cw5_block.transactions, tx.sender = "miners_pool" ∧
        tx.recipient = cb.recipient ∧
        |tx.amount - feesSum cw5_block.transactions| < 1/1000000000) :=
  have h1 : (validate_block cx5_params cx5_chain [] [] 100 cw5_block).1 = .ok () := by rfl
  have h2 : feesSum cw5_block.transactions > 0 := by
    simp [feesSum, userTxs, cw5_block, cx5_cb, cx5_user, cx5_pool1]
  ⟨⟨h1, h2⟩, C5_fee_payout_amended cx5_params cx5_chain [] [] 100 cw5_block h1 h2⟩

/-! ## C4 — mempool eviction at capacity -/

def cx4_txA : Tx :=
  { sender := "s1", recipient := "r1", amount := 1, fee := 1,
    timestamp := 1000, nonce := none,
    txid := String.mk (List.replicate 64 'p'), signature := "x" }

def cx4_txB : Tx :=
  { sender := "s2", recipient := "r2", amount := 1, fee := 5,
    timestamp := 1000, nonce := none,
    txid := String.mk (List.replicate 64 'q'), signature := "x" }

def cx4_txC : Tx :=
  { sender := "s3", recipient := "r3", amount := 1, fee := 3,
    timestamp := 1000, nonce := none,
    txid := String.mk (List.replicate 64 'r'), signature := "x" }

def cx4_txD : Tx :=
  { sender := "s4", recipient := "r4", amount := 1, fee := 10,
    timestamp := 1000, nonce := none,
    txid := String.mk (List.replicate 64 's'), signature := "x" }

/-- A capacity-2 mempool filled with fees {1, 5}. -/
def cx4_full : MempoolState :=
  (add_transaction (add_transaction (mkMempool 2 3600) 1000 cx4_txA).1 1000 cx4_txB).1

/-- Claim C4 (code bug): at capacity `add_transaction` reads
`priority_queue[0]` — the root of a min-heap ordered by `-fee`, i.e. the
HIGHEST-fee resident — as "the lowest fee transaction". With residents of
fees {1, 5} at capacity 2: a new fee-3 transaction is rejected as "mempool
full — fee too low" although 3 exceeds the true lowest resident fee 1
(which the code comments, its log message and its module self-test all
promise to evict), and a new fee-10 transaction evicts the HIGHEST-fee
resident (fee 5), not the lowest. -/
theorem C4_mempool_eviction_bug :
    get_size cx4_full = cx4_full.max_size ∧
    cx4_full.priority_queue.map (·.negFee) = [-5, -1] ∧
    cx4_txC.fee = 3 ∧
    (∃ e ∈ cx4_full.priority_queue, e.tx.fee = 1 ∧
      ∀ e' ∈ cx4_full.priority_queue, e.tx.fee ≤ e'.tx.fee) ∧
    (add_transaction cx4_full 1000 cx4_txC).2.1 = false ∧
    (add_transaction cx4_full 1000 cx4_txC).1.tx_index.map (·.1) =
      cx4_full.tx_index.map (·.1) ∧
    (add_transaction cx4_full 1000 cx4_txD).1.tx_index.map (·.1) =
      [cx4_txA.txid, cx4_txD.txid] := by
  refine ⟨by rfl, by rfl, by rfl, by decide, by rfl, by rfl, by rfl⟩

/-! ## C6 — mining selection order -/

def cx6_txc : Tx :=
  { sender := "s5", recipient := "r5", amount := 1, fee := 2,
    timestamp := 10, nonce := none,
    txid := String.mk (List.replicate 64 't'), signature := "x" }

def cx6_txa : Tx :=
  { sender := "s6", recipient := "r6", amount := 1, fee := 1,
    timestamp := 100, nonce := none,
    txid := String.mk (List.replicate 64 'u'), signature := "x" }

def cx6_txb : Tx :=
  { sender := "s7", recipient := "r7", amount := 1, fee := 1,
    timestamp := 50, nonce := none,
    txid := String.mk (List.replicate 64 'v'), signature := "x" }

/-- Adding a fee-2 entry and then two fee-1 entries with timestamps 100 and
50 leaves the heap's internal array as `[c, a, b]` — the equal-fee pair in
heap order, which is NOT timestamp order. -/
def cx6_pool : MempoolState :=
  (add_transaction
    (add_transaction
      (add_transaction (mkMempool 10000 3600) 100 cx6_txc).1 100 cx6_txa).1
    100 cx6_txb).1

/-- Claim C6 (counterexample): `get_transactions_for_mining` sorts on the
`-fee` key ALONE (`key=lambda x: x[0]`); the sort being stable, equal-fee
entries keep the heap's internal order. Here the fee-1 pair comes out with
timestamps `(100, 50)` — not the earliest-timestamp-first order the claim
asserts. -/
theorem C6_counterexample :
    (get_transactions_for_mining cx6_pool 100 1000).1 =
      [cx6_txc, cx6_txa, cx6_txb] ∧
    cx6_txa.fee = cx6_txb.fee ∧
    cx6_txa.timestamp > cx6_txb.timestamp ∧
    (get_transactions_for_mining cx6_pool 100 1000).1 ≠
      [cx6_txc, cx6_txb, cx6_txa] := by
  refine ⟨by rfl, by rfl, by decide, by decide⟩

/-! ## Permutation facts about the `heapq` model -/

theorem siftdownFuel_length (a : MEntry) : ∀ (fuel : Nat) (heap : List MEntry)
    (sp pos : Nat) (ni : MEntry),
    (siftdownFuel fuel heap sp pos ni).length = heap.length
  | 0, heap, sp, pos, ni => by simp [siftdownFuel]
  | fuel + 1, heap, sp, pos, ni => by
    unfold siftdownFuel
    split
    · dsimp only
      split
      · rw [siftdownFuel_length a fuel]
        simp
      · simp
    · simp

theorem siftupFuel_length (a : MEntry) : ∀ (fuel endpos sp : Nat) (ni : MEntry)
    (heap : List MEntry) (pos : Nat),
    (siftupFuel fuel endpos sp ni heap pos).length = heap.length
  | 0, endpos, sp, ni, heap, pos => by
    simp [siftupFuel, siftdown, siftdownFuel_length a]
  | fuel + 1, endpos, sp, ni, heap, pos => by
    unfold siftupFuel
    split
    · dsimp only
      rw [siftupFuel_length a fuel]
      simp
    · simp [siftdown, siftdownFuel_length a]

/-- The two-position counting identity for `List.set`. -/
theorem count_set' (a v : MEntry) : ∀ (l : List MEntry) (i : Nat), i < l.length →
    (l.set i v).count a + (if l[i]? = some a then 1 else 0) =
      l.count a + (if v = a then 1 else 0)
  | [], i, h => absurd h (by simp)
  | x :: xs, 0, _ => by
    have h1 : (x :: xs).set 0 v = v :: xs := rfl
    have h2 : (x :: xs)[0]? = some x := by simp
    rw [h1, h2]
    by_cases hx : x = a
    · by_cases hv : v = a
      · rw [hv, hx]
        simp
      · rw [hx, List.count_cons_self, List.count_cons_of_ne (Ne.symm hv)]
        simp [hv]
    · by_cases hv : v = a
      · rw [hv, List.count_cons_self, List.count_cons_of_ne (Ne.symm hx)]
        simp [hx]
      · rw [List.count_cons_of_ne (Ne.symm hx), List.count_cons_of_ne (Ne.symm hv)]
        simp [hx, hv]
  | x :: xs, i + 1, h => by
    have ih := count_set' a v xs i (by simpa using h)
    have h1 : (x :: xs).set (i + 1) v = x :: xs.set i v := rfl
    have h2 : (x :: xs)[i + 1]? = xs[i]? := by simp
    rw [h1, h2, List.count_cons, List.count_cons]
    omega

theorem pick_child_lt (heap : List MEntry) (endpos childpos : Nat)
    (h : childpos < endpos) : pick_child heap endpos childpos < endpos := by
  unfold pick_child
  split
  next hcond => exact hcond.1
  next => exact h

/-- `some x = some a` and `x = a` count the same. -/
theorem if_some_eq (x a : MEntry) :
    (if some x = some a then 1 else 0) = (if x = a then 1 else 0) := by
  simp

theorem idx_eq_of_lt (heap : List MEntry) (i : Nat) (h : i < heap.length) :
    heap[i]? = some (idx heap i) := by
  rw [List.getElem?_eq_getElem h]
  simp [idx, List.getElem?_eq_getElem h]

theorem siftdownFuel_count (a : MEntry) : ∀ (fuel : Nat) (heap : List MEntry)
    (sp pos : Nat) (ni : MEntry), pos < heap.length →
    (siftdownFuel fuel heap sp pos ni).count a +
        (if heap[pos]? = some a then 1 else 0) =
      heap.count a + (if ni = a then 1 else 0)
  | 0, heap, sp, pos, ni, h => by
    simp only [siftdownFuel]
    exact count_set' a ni heap pos h
  | fuel + 1, heap, sp, pos, ni, h => by
    unfold siftdownFuel
    split
    next hsp =>
      dsimp only
      split
      next hlt =>
        have hpp : (pos - 1) / 2 < heap.length := by omega
        have ih := siftdownFuel_count a fuel
          (heap.set pos (idx heap ((pos - 1) / 2))) sp ((pos - 1) / 2) ni
          (by simpa using hpp)
        have hget : (heap.set pos (idx heap ((pos - 1) / 2)))[(pos - 1) / 2]? =
            heap[(pos - 1) / 2]? :=
          List.getElem?_set_ne (by omega)
        rw [hget, idx_eq_of_lt heap ((pos - 1) / 2) hpp, if_some_eq] at ih
        have hcs := count_set' a (idx heap ((pos - 1) / 2)) heap pos h
        omega
      next => exact count_set' a ni heap pos h
    next => exact count_set' a ni heap pos h

theorem siftupFuel_count (a : MEntry) : ∀ (fuel endpos sp : Nat) (ni : MEntry)
    (heap : List MEntry) (pos : Nat), pos < heap.length → endpos ≤ heap.length →
    (siftupFuel fuel endpos sp ni heap pos).count a +
        (if heap[pos]? = some a then 1 else 0) =
      heap.count a + (if ni = a then 1 else 0)
  | 0, endpos, sp, ni, heap, pos, h, hend => by
    simp only [siftupFuel, siftdown]
    have hsd := siftdownFuel_count a pos (heap.set pos ni) sp pos ni
      (by simpa using h)
    rw [List.getElem?_set_self h, if_some_eq] at hsd
    have hcs := count_set' a ni heap pos h
    omega
  | fuel + 1, endpos, sp, ni, heap, pos, h, hend => by
    unfold siftupFuel
    split
    next hchild =>
      dsimp only
      have hcp1 : pick_child heap endpos (2 * pos + 1) < endpos :=
        pick_child_lt heap endpos (2 * pos + 1) hchild
      have hcp2 : 2 * pos + 1 ≤ pick_child heap endpos (2 * pos + 1) :=
        pick_child_ge heap endpos (2 * pos + 1)
      have hcplt : pick_child heap endpos (2 * pos + 1) < heap.length := by omega
      have ih := siftupFuel_count a fuel endpos sp ni
        (heap.set pos (idx heap (pick_child heap endpos (2 * pos + 1))))
        (pick_child heap endpos (2 * pos + 1))
        (by simpa using hcplt) (by simpa using hend)
      have hget : (heap.set pos (idx heap (pick_child heap endpos (2 * pos + 1))))[
          pick_child heap endpos (2 * pos + 1)]? =
          heap[pick_child heap endpos (2 * pos + 1)]? :=
        List.getElem?_set_ne (by omega)
      rw [hget, idx_eq_of_lt heap _ hcplt, if_some_eq] at ih
      have hcs := count_set' a (idx heap (pick_child heap endpos (2 * pos + 1))) heap pos h
      omega
    next =>
      simp only [siftdown]
      have hsd := siftdownFuel_count a pos (heap.set pos ni) sp pos ni
        (by simpa using h)
      rw [List.getElem?_set_self h, if_some_eq] at hsd
      have hcs := count_set' a ni heap pos h
      omega

theorem siftup_perm (heap : List MEntry) (pos : Nat) (h : pos < heap.length) :
    (siftup heap pos).Perm heap := by
  rw [List.perm_iff_count]
  intro a
  have hc := siftupFuel_count a heap.length heap.length pos (idx heap pos) heap pos h le_rfl
  rw [idx_eq_of_lt heap pos h, if_some_eq] at hc
  simpa [siftup] using hc

theorem heappush_perm (heap : List MEntry) (x : MEntry) :
    (heappush heap x).Perm (x :: heap) := by
  rw [List.perm_iff_count]
  intro a
  have hc := siftdownFuel_count a heap.length (heap ++ [x]) 0 heap.length x
    (by simp)
  have hget : (heap ++ [x])[heap.length]? = some x := by
    rw [List.getElem?_append_right le_rfl]
    simp
  rw [hget, if_some_eq] at hc
  have happ : (heap ++ [x]).count a = heap.count a + (if x = a then 1 else 0) := by
    rw [List.count_append]
    by_cases hx : x = a
    · simp [hx]
    · rw [if_neg hx]
      have hz : List.count a [x] = 0 := by
        simp [List.count_eq_zero]
        exact fun hh => hx hh.symm
      rw [hz]
  rw [List.count_cons]
  simp only [heappush, siftdown]
  by_cases hx : x = a <;> simp [hx] at hc happ ⊢ <;> omega

theorem heappop_perm (heap : List MEntry) (r : MEntry) (h' : List MEntry)
    (h : heappop heap = some (r, h')) : (r :: h').Perm heap := by
  rcases heap.eq_nil_or_concat with rfl | ⟨l, b, rfl⟩
  · simp [heappop] at h
  · rw [List.concat_eq_append] at h ⊢
    have hlast : (l ++ [b]).getLast? = some b := by
      simp
    have hdrop : (l ++ [b]).dropLast = l := by
      simp
    unfold heappop at h
    rw [hlast] at h
    dsimp only at h
    rw [hdrop] at h
    cases l with
    | nil =>
      simp only [Option.some.injEq, Prod.mk.injEq] at h
      obtain ⟨h1, h2⟩ := h
      rw [← h1, ← h2]
      simp
    | cons r0 rest =>
      simp only [Option.some.injEq, Prod.mk.injEq] at h
      obtain ⟨h1, h2⟩ := h
      have hperm : (siftup ((r0 :: rest).set 0 b) 0).Perm ((r0 :: rest).set 0 b) :=
        siftup_perm _ 0 (by simp)
      rw [← h2, ← h1]
      refine List.Perm.trans (hperm.cons r0) ?_
      rw [show ((r0 :: rest).set 0 b) = b :: rest from rfl]
      rw [List.perm_iff_count]
      intro a
      simp [List.count_append, List.count_cons]

theorem heapify_perm (x : List MEntry) : (heapify x).Perm x := by
  unfold heapify
  have hgen : ∀ (is : List Nat) (acc : List MEntry), acc.length = x.length →
      (∀ i ∈ is, i < x.length) →
      (is.foldl (fun h i => siftup h i) acc).Perm acc ∧
        (is.foldl (fun h i => siftup h i) acc).length = x.length := by
    intro is
    induction is with
    | nil => intro acc hlen _; exact ⟨List.Perm.refl _, hlen⟩
    | cons i rest ih =>
      intro acc hlen hbound
      have hi : i < acc.length := by
        rw [hlen]; exact hbound i (by simp)
      have hsl : (siftup acc i).length = acc.length := by
        simp [siftup, siftupFuel_length default]
      obtain ⟨hp, hl⟩ := ih (siftup acc i) (by rw [hsl, hlen])
        (fun j hj => hbound j (by simp [hj]))
      exact ⟨hp.trans (siftup_perm acc i hi), hl⟩
  have hbound : ∀ i ∈ (List.range (x.length / 2)).reverse, i < x.length := by
    intro i hi
    rw [List.mem_reverse, List.mem_range] at hi
    omega
  exact (hgen (List.range (x.length / 2)).reverse x rfl hbound).1

/-! ### The mempool representation invariant -/

/-- Queue entries are built from their transaction by `add_transaction`:
the tuple pushed is `(-fee, timestamp, txid, tx)`. -/
def EntryWF (e : MEntry) : Prop :=
  e.negFee = -e.tx.fee ∧ e.ts = e.tx.timestamp ∧ e.txid = e.tx.txid

/-- The `AdvancedMempool` representation invariant: the queue's txids are a
permutation of the index's keys (so they agree as multisets), the keys are
distinct (hence so are the queued txids), and every queued entry packages
its own transaction. -/
def MInv (st : MempoolState) : Prop :=
  (st.priority_queue.map (fun e => e.txid)).Perm (st.tx_index.map Prod.fst) ∧
  (st.tx_index.map Prod.fst).Nodup ∧
  ∀ e ∈ st.priority_queue, EntryWF e

theorem map_txid_filter (t : String) (l : List MEntry) :
    (l.filter (fun e => e.txid ≠ t)).map (fun e => e.txid) =
      (l.map (fun e => e.txid)).filter (fun y => y ≠ t) := by
  induction l with
  | nil => rfl
  | cons a as ih =>
    by_cases h : a.txid = t
    · rw [List.filter_cons, if_neg (by simp [h]), List.map_cons,
        List.filter_cons, if_neg (by simp [h])]
      exact ih
    · rw [List.filter_cons, if_pos (by simp [h]), List.map_cons, List.map_cons,
        List.filter_cons, if_pos (by simp [h])]
      exact congrArg (List.cons a.txid) ih

theorem map_fst_erase (k : String) (m : List (String × Tx)) :
    (txIndexErase m k).map Prod.fst = (m.map Prod.fst).filter (fun y => y ≠ k) := by
  induction m with
  | nil => rfl
  | cons p ps ih =>
    unfold txIndexErase at ih ⊢
    by_cases h : p.1 = k
    · rw [List.filter_cons, if_neg (by simp [h]), List.map_cons,
        List.filter_cons, if_neg (by simp [h])]
      exact ih
    · rw [List.filter_cons, if_pos (by simp [h]), List.map_cons, List.map_cons,
        List.filter_cons, if_pos (by simp [h])]
      exact congrArg (List.cons p.1) ih

theorem filter_ne_eq_erase {α : Type} [DecidableEq α] (a : α) (l : List α)
    (h : l.Nodup) : l.filter (fun x => x ≠ a) = l.erase a := by
  induction l with
  | nil => rfl
  | cons b bs ih =>
    rw [List.nodup_cons] at h
    by_cases hba : b = a
    · subst hba
      rw [List.erase_cons_head, List.filter_cons, if_neg (by simp)]
      exact List.filter_eq_self.mpr (fun x hx => by
        simp only [decide_eq_true_eq]
        exact fun hxa => h.1 (hxa ▸ hx))
    · rw [List.filter_cons, if_pos (by simp [hba]), List.erase_cons,
        if_neg (by simp [hba]), ih h.2]

theorem txIndexLookup_eq_none_iff (m : List (String × Tx)) (k : String) :
    txIndexLookup m k = none ↔ k ∉ m.map Prod.fst := by
  induction m with
  | nil => simp [txIndexLookup]
  | cons p ps ih =>
    unfold txIndexLookup at ih ⊢
    by_cases h : p.1 = k
    · have hd : decide (p.1 = k) = true := by simp [h]
      rw [List.find?_cons, hd]
      simp [h]
    · have hd : decide (p.1 = k) = false := by simp [h]
      rw [List.find?_cons, hd]
      dsimp only
      simp only [List.map_cons, List.mem_cons]
      rw [ih]
      constructor
      · intro hm hk
        rcases hk with hk | hk
        · exact h hk.symm
        · exact hm hk
      · intro hm hk
        exact hm (Or.inr hk)

theorem txIndexStore_of_absent (m : List (String × Tx)) (k : String) (v : Tx)
    (h : txIndexLookup m k = none) : txIndexStore m k v = m ++ [(k, v)] := by
  have hf : List.find? (fun p => p.1 = k) m = none := by
    cases hf : List.find? (fun p => p.1 = k) m with
    | none => rfl
    | some p => unfold txIndexLookup at h; rw [hf] at h; simp at h
  unfold txIndexStore
  rw [hf]
  simp

theorem remove_transaction_pq_sub (st : MempoolState) (t : String) :
    ∀ e ∈ ((remove_transaction st t).1).priority_queue, e ∈ st.priority_queue := by
  intro e he
  by_cases h : (txIndexLookup st.tx_index t).isNone
  · rw [remove_transaction, if_pos h] at he
    exact he
  · rw [remove_transaction, if_neg h] at he
    dsimp only at he
    have h2 := (heapify_perm _).mem_iff.mp he
    exact (List.mem_filter.mp h2).1

theorem remove_transactions_pq_sub (ts : List String) :
    ∀ st : MempoolState, ∀ e ∈ (remove_transactions st ts).priority_queue,
      e ∈ st.priority_queue := by
  induction ts with
  | nil => intro st e he; exact he
  | cons t ts ih =>
    intro st e he
    exact remove_transaction_pq_sub st t e (ih (remove_transaction st t).1 e he)

theorem mempoolPush_minv (st : MempoolState) (tx : Tx) (h : MInv st)
    (habs : txIndexLookup st.tx_index tx.txid = none) :
    MInv (mempoolPush st tx).1 := by
  obtain ⟨hperm, hnd, hwf⟩ := h
  have hkey : tx.txid ∉ st.tx_index.map Prod.fst :=
    (txIndexLookup_eq_none_iff _ _).mp habs
  unfold mempoolPush
  dsimp only
  refine ⟨?_, ?_, ?_⟩
  · rw [txIndexStore_of_absent _ _ _ habs, List.map_append]
    have h1 := (heappush_perm st.priority_queue
      ⟨-tx.fee, tx.timestamp, tx.txid, tx⟩).map (fun e => e.txid)
    refine h1.trans ?_
    simp only [List.map_cons]
    exact (hperm.cons tx.txid).trans (List.perm_append_singleton tx.txid _).symm
  · rw [txIndexStore_of_absent _ _ _ habs, List.map_append]
    rw [List.nodup_append]
    refine ⟨hnd, by simp, ?_⟩
    intro a ha hb
    rw [List.map_cons, List.map_nil, List.mem_singleton] at hb
    rw [hb] at ha
    exact hkey ha
  · intro e he
    have h2 := (heappush_perm _ _).mem_iff.mp he
    rcases List.mem_cons.mp h2 with rfl | hmem
    · exact ⟨rfl, rfl, rfl⟩
    · exact hwf e hmem

theorem add_transaction_minv (st : MempoolState) (now : ℚ) (tx : Tx)
    (h : MInv st) : MInv (add_transaction st now tx).1 := by
  obtain ⟨hperm, hnd, hwf⟩ := h
  have hst : MInv { st with total_received := st.total_received + 1 } :=
    ⟨hperm, hnd, hwf⟩
  unfold add_transaction
  dsimp only
  by_cases h1 : (txIndexLookup st.tx_index tx.txid).isSome
  · rw [if_pos h1]
    exact hst
  · rw [if_neg h1]
    have habs : txIndexLookup st.tx_index tx.txid = none :=
      Option.not_isSome_iff_eq_none.mp h1
    by_cases h2 : ratSub now tx.timestamp > st.max_tx_age
    · rw [if_pos h2]
      exact ⟨hperm, hnd, hwf⟩
    · rw [if_neg h2]
      by_cases h3 : st.priority_queue.length ≥ st.max_size
      · rw [if_pos h3]
        cases hpq : st.priority_queue with
        | nil =>
          rw [hpq] at hperm hwf
          exact mempoolPush_minv _ _ ⟨hperm, hnd, hwf⟩ habs
        | cons root rest =>
          rw [hpq] at hperm hwf
          dsimp only
          by_cases h4 : tx.fee ≤ -root.negFee
          · rw [if_pos h4]
            exact ⟨hperm, hnd, hwf⟩
          · rw [if_neg h4]
            cases hpop : heappop (root :: rest) with
            | none =>
              exact mempoolPush_minv _ _ ⟨hperm, hnd, hwf⟩ habs
            | some pr =>
              obtain ⟨removed, pq'⟩ := pr
              have hperm2 : (removed :: pq').Perm (root :: rest) :=
                heappop_perm _ _ _ hpop
              have hconsperm : (removed.txid :: pq'.map (fun e => e.txid)).Perm
                  (st.tx_index.map Prod.fst) := by
                have h5 := hperm2.map (fun e => e.txid)
                simp only [List.map_cons] at h5
                exact h5.trans hperm
              obtain ⟨hmemk, hpq'⟩ := List.cons_perm_iff_perm_erase.mp hconsperm
              have herase_eq : (txIndexErase st.tx_index removed.txid).map Prod.fst =
                  (st.tx_index.map Prod.fst).erase removed.txid := by
                rw [map_fst_erase]
                exact filter_ne_eq_erase removed.txid _ hnd
              have hint : MInv { st with
                  total_received := st.total_received + 1
                  priority_queue := pq'
                  tx_index := txIndexErase st.tx_index removed.txid } := by
                refine ⟨?_, ?_, ?_⟩
                · dsimp only
                  rw [herase_eq]
                  exact hpq'
                · dsimp only
                  rw [map_fst_erase]
                  exact hnd.filter _
                · intro e he
                  exact hwf e (hperm2.mem_iff.mp (List.mem_cons_of_mem _ he))
              have habs2 : txIndexLookup
                  (txIndexErase st.tx_index removed.txid) tx.txid = none := by
                apply (txIndexLookup_eq_none_iff _ _).mpr
                rw [herase_eq]
                intro hmem
                exact (txIndexLookup_eq_none_iff _ _).mp habs
                  (List.mem_of_mem_erase hmem)
              exact mempoolPush_minv _ _ hint habs2
      · rw [if_neg h3]
        exact mempoolPush_minv _ _ hst habs

theorem remove_transaction_minv (st : MempoolState) (t : String) (h : MInv st) :
    MInv (remove_transaction st t).1 := by
  obtain ⟨hperm, hnd, hwf⟩ := h
  by_cases h1 : (txIndexLookup st.tx_index t).isNone
  · rw [remove_transaction, if_pos h1]
    exact ⟨hperm, hnd, hwf⟩
  · rw [remove_transaction, if_neg h1]
    dsimp only
    refine ⟨?_, ?_, ?_⟩
    · have h2 := (heapify_perm
        (st.priority_queue.filter (fun e => e.txid ≠ t))).map (fun e => e.txid)
      refine h2.trans ?_
      rw [map_txid_filter, map_fst_erase]
      exact hperm.filter _
    · rw [map_fst_erase]
      exact hnd.filter _
    · intro e he
      have h2 := (heapify_perm _).mem_iff.mp he
      exact hwf e (List.mem_filter.mp h2).1

theorem remove_transactions_minv (ts : List String) :
    ∀ st : MempoolState, MInv st → MInv (remove_transactions st ts) := by
  induction ts with
  | nil => intro st h; exact h
  | cons t ts ih =>
    intro st h
    exact ih (remove_transaction st t).1 (remove_transaction_minv st t h)

theorem remove_expired_minv (st : MempoolState) (now : ℚ) (h : MInv st) :
    MInv (remove_expired st now) := by
  have hX := remove_transactions_minv
    ((st.priority_queue.filter
      (fun e => ratSub now e.ts > st.max_tx_age)).map (fun e => e.txid)) st h
  exact ⟨hX.1, hX.2.1, hX.2.2⟩

theorem mempool_clear_minv (st : MempoolState) : MInv (mempool_clear st) :=
  ⟨List.Perm.refl [], List.nodup_nil, fun e he => absurd he (List.not_mem_nil e)⟩

theorem applyOp_minv (st : MempoolState) (op : MempoolOp) (h : MInv st) :
    MInv (applyOp st op) := by
  cases op with
  | add now tx => exact add_transaction_minv st now tx h
  | remove txid => exact remove_transaction_minv st txid h
  | removeMany txids => exact remove_transactions_minv txids st h
  | removeExpired now => exact remove_expired_minv st now h
  | clear => exact mempool_clear_minv st

theorem runOps_minv (ops : List MempoolOp) :
    ∀ st : MempoolState, MInv st → MInv (runOps st ops) := by
  induction ops with
  | nil => intro st h; exact h
  | cons op ops ih =>
    intro st h
    exact ih (applyOp st op) (applyOp_minv st op h)

theorem mkMempool_minv (max_size : Nat) (max_age : ℚ) :
    MInv (mkMempool max_size max_age) :=
  ⟨List.Perm.refl [], List.nodup_nil, fun e he => absurd he (List.not_mem_nil e)⟩

theorem remove_transactions_not_mem (ts : List String) :
    ∀ st : MempoolState, MInv st → ∀ t ∈ ts,
      ∀ e ∈ (remove_transactions st ts).priority_queue, e.txid ≠ t := by
  induction ts with
  | nil =>
    intro st _ t ht
    exact absurd ht (List.not_mem_nil t)
  | cons t' ts ih =>
    intro st hm t ht e he
    have hm' : MInv (remove_transaction st t').1 := remove_transaction_minv st t' hm
    rcases List.mem_cons.mp ht with rfl | hts
    · intro hcontra
      have he1 : e ∈ ((remove_transaction st t).1).priority_queue :=
        remove_transactions_pq_sub ts _ e he
      by_cases hp : (txIndexLookup st.tx_index t).isNone
      · rw [remove_transaction, if_pos hp] at he1
        have hmem : e.txid ∈ st.tx_index.map Prod.fst :=
          hm.1.mem_iff.mp (List.mem_map_of_mem (fun e => e.txid) he1)
        have habs := (txIndexLookup_eq_none_iff _ _).mp
          (Option.isNone_iff_eq_none.mp hp)
        rw [hcontra] at hmem
        exact habs hmem
      · rw [remove_transaction, if_neg hp] at he1
        dsimp only at he1
        have h2 := (heapify_perm _).mem_iff.mp he1
        have h3 := (List.mem_filter.mp h2).2
        simp only [decide_eq_true_eq] at h3
        exact h3 hcontra
    · exact ih _ hm' t hts e he

theorem remove_expired_fresh (st : MempoolState) (now : ℚ) (h : MInv st) :
    ∀ e ∈ (remove_expired st now).priority_queue,
      ¬ (ratSub now e.ts > st.max_tx_age) := by
  intro e he hexp
  have he' : e ∈ (remove_transactions st
      ((st.priority_queue.filter
        (fun x => ratSub now x.ts > st.max_tx_age)).map (fun x => x.txid))).priority_queue :=
    he
  have hsub : e ∈ st.priority_queue := remove_transactions_pq_sub _ st e he'
  have hmem : e.txid ∈ (st.priority_queue.filter
      (fun x => ratSub now x.ts > st.max_tx_age)).map (fun x => x.txid) :=
    List.mem_map_of_mem _ (List.mem_filter.mpr ⟨hsub, decide_eq_true hexp⟩)
  exact remove_transactions_not_mem _ st h e.txid hmem e he' rfl

theorem remove_transaction_age (st : MempoolState) (t : String) :
    ((remove_transaction st t).1).max_tx_age = st.max_tx_age := by
  unfold remove_transaction
  split <;> rfl

theorem remove_transactions_age (ts : List String) :
    ∀ st : MempoolState, (remove_transactions st ts).max_tx_age = st.max_tx_age := by
  induction ts with
  | nil => intro st; rfl
  | cons t ts ih =>
    intro st
    exact (ih ((remove_transaction st t).1)).trans (remove_transaction_age st t)

theorem remove_expired_age (st : MempoolState) (now : ℚ) :
    (remove_expired st now).max_tx_age = st.max_tx_age :=
  remove_transactions_age _ st

theorem add_transaction_age (st : MempoolState) (now : ℚ) (tx : Tx) :
    ((add_transaction st now tx).1).max_tx_age = st.max_tx_age := by
  unfold add_transaction mempoolPush
  dsimp only
  repeat' split
  all_goals rfl

theorem applyOp_age (st : MempoolState) (op : MempoolOp) :
    (applyOp st op).max_tx_age = st.max_tx_age := by
  cases op with
  | add now tx => exact add_transaction_age st now tx
  | remove txid => exact remove_transaction_age st txid
  | removeMany txids => exact remove_transactions_age txids st
  | removeExpired now => exact remove_expired_age st now
  | clear => rfl

theorem runOps_age (ops : List MempoolOp) :
    ∀ st : MempoolState, (runOps st ops).max_tx_age = st.max_tx_age := by
  induction ops with
  | nil => intro st; rfl
  | cons op ops ih =>
    intro st
    exact (ih (applyOp st op)).trans (applyOp_age st op)

theorem insertByNegFee_perm (x : MEntry) (l : List MEntry) :
    (insertByNegFee x l).Perm (x :: l) := by
  induction l with
  | nil => exact List.Perm.refl _
  | cons y ys ih =>
    simp only [insertByNegFee]
    by_cases h : x.negFee < y.negFee
    · rw [if_pos h]
    · rw [if_neg h]
      exact (ih.cons y).trans (List.Perm.swap x y ys)

theorem pySortByNegFee_perm (l : List MEntry) : (pySortByNegFee l).Perm l := by
  have hgen : ∀ (l acc : List MEntry),
      (l.foldl (fun acc x => insertByNegFee x acc) acc).Perm (acc ++ l) := by
    intro l
    induction l with
    | nil => intro acc; simp
    | cons x xs ih =>
      intro acc
      rw [List.foldl_cons]
      refine (ih (insertByNegFee x acc)).trans ?_
      refine (List.Perm.append_right xs (insertByNegFee_perm x acc)).trans ?_
      exact List.perm_middle.symm
  have h := hgen l []
  simpa using h

theorem insertByNegFee_pairwise (x : MEntry) (l : List MEntry)
    (h : l.Pairwise (fun a b => a.negFee ≤ b.negFee)) :
    (insertByNegFee x l).Pairwise (fun a b => a.negFee ≤ b.negFee) := by
  induction l with
  | nil => exact List.pairwise_singleton _ _
  | cons y ys ih =>
    rw [List.pairwise_cons] at h
    obtain ⟨hy, hys⟩ := h
    simp only [insertByNegFee]
    by_cases hxy : x.negFee < y.negFee
    · rw [if_pos hxy, List.pairwise_cons]
      refine ⟨?_, List.pairwise_cons.mpr ⟨hy, hys⟩⟩
      intro z hz
      rcases List.mem_cons.mp hz with rfl | hz'
      · exact le_of_lt hxy
      · exact le_trans (le_of_lt hxy) (hy z hz')
    · rw [if_neg hxy, List.pairwise_cons]
      refine ⟨?_, ih hys⟩
      intro z hz
      have hz2 := (insertByNegFee_perm x ys).mem_iff.mp hz
      rcases List.mem_cons.mp hz2 with rfl | hz'
      · exact le_of_not_lt hxy
      · exact hy z hz'

theorem pySortByNegFee_pairwise (l : List MEntry) :
    (pySortByNegFee l).Pairwise (fun a b => a.negFee ≤ b.negFee) := by
  have hgen : ∀ (l acc : List MEntry),
      acc.Pairwise (fun a b => a.negFee ≤ b.negFee) →
      (l.foldl (fun acc x => insertByNegFee x acc) acc).Pairwise
        (fun a b => a.negFee ≤ b.negFee) := by
    intro l
    induction l with
    | nil => intro acc h; exact h
    | cons x xs ih =>
      intro acc h
      rw [List.foldl_cons]
      exact ih _ (insertByNegFee_pairwise x acc h)
  exact hgen l [] List.Pairwise.nil

theorem pairwise_mono_mem {α : Type} {R S : α → α → Prop} :
    ∀ {l : List α}, (∀ a ∈ l, ∀ b ∈ l, R a b → S a b) → l.Pairwise R →
      l.Pairwise S := by
  intro l
  induction l with
  | nil => intro _ _; exact List.Pairwise.nil
  | cons x xs ih =>
    intro hmono h
    rw [List.pairwise_cons] at h ⊢
    refine ⟨?_, ih ?_ h.2⟩
    · intro b hb
      exact hmono x (List.mem_cons_self x xs) b (List.mem_cons_of_mem x hb)
        (h.1 b hb)
    · intro a ha b hb
      exact hmono a (List.mem_cons_of_mem x ha) b (List.mem_cons_of_mem x hb)

def cw10_tx : Tx :=
  { sender := "s8", recipient := "r8", amount := 1, fee := 1,
    timestamp := 50, nonce := none,
    txid := String.mk (List.replicate 64 'w'), signature := "x" }

/-- Claim C10: after every sequence of `AdvancedMempool` operations from a
fresh mempool, (i) the multiset of txids in the priority queue equals the
key multiset of `tx_index` (so the txid sets coincide), (ii) each txid
appears in the queue exactly once, (iii) `get_size()` equals the number of
index entries, and (iv) `remove_transaction` on an absent txid returns
`False` and leaves the state unchanged. -/
theorem C10_mempool_invariants (max_size : Nat) (max_age : ℚ)
    (ops : List MempoolOp) (txid : String)
    (habs : txid ∉ (runOps (mkMempool max_size max_age) ops).tx_index.map Prod.fst) :
    ((runOps (mkMempool max_size max_age) ops).priority_queue.map
        (fun e => e.txid)).Perm
      ((runOps (mkMempool max_size max_age) ops).tx_index.map Prod.fst)
    ∧ ((runOps (mkMempool max_size max_age) ops).priority_queue.map
        (fun e => e.txid)).Nodup
    ∧ get_size (runOps (mkMempool max_size max_age) ops) =
        (runOps (mkMempool max_size max_age) ops).tx_index.length
    ∧ remove_transaction (runOps (mkMempool max_size max_age) ops) txid =
        (runOps (mkMempool max_size max_age) ops, false) := by
  have hm := runOps_minv ops (mkMempool max_size max_age)
    (mkMempool_minv max_size max_age)
  obtain ⟨hperm, hnd, _⟩ := hm
  refine ⟨hperm, hperm.nodup_iff.mpr hnd, ?_, ?_⟩
  · have h1 := hperm.length_eq
    rw [List.length_map, List.length_map] at h1
    exact h1
  · have h2 : txIndexLookup
        (runOps (mkMempool max_size max_age) ops).tx_index txid = none :=
      (txIndexLookup_eq_none_iff _ _).mpr habs
    rw [remove_transaction, if_pos (show _ by rw [h2]; rfl)]

theorem C10_mempool_invariants_witness :
    ((runOps (mkMempool 10 3600) [MempoolOp.add 50 cw10_tx]).priority_queue.map
        (fun e => e.txid)).Perm
      ((runOps (mkMempool 10 3600) [MempoolOp.add 50 cw10_tx]).tx_index.map Prod.fst)
    ∧ ((runOps (mkMempool 10 3600) [MempoolOp.add 50 cw10_tx]).priority_queue.map
        (fun e => e.txid)).Nodup
    ∧ get_size (runOps (mkMempool 10 3600) [MempoolOp.add 50 cw10_tx]) =
        (runOps (mkMempool 10 3600) [MempoolOp.add 50 cw10_tx]).tx_index.length
    ∧ remove_transaction
        (runOps (mkMempool 10 3600) [MempoolOp.add 50 cw10_tx]) "zz" =
        (runOps (mkMempool 10 3600) [MempoolOp.add 50 cw10_tx], false) :=
  C10_mempool_invariants 10 3600 [MempoolOp.add 50 cw10_tx] "zz" (by decide)

def cw6_tx : Tx :=
  { sender := "s9", recipient := "r9", amount := 1, fee := 1,
    timestamp := 40, nonce := none,
    txid := String.mk (List.replicate 64 'y'), signature := "x" }

/-- Claim C6 (amended): on every reachable mempool state,
`get_transactions_for_mining` first runs `_remove_expired` and then returns
transactions sorted by fee in DESCENDING (not strictly descending) order;
ties between equal-fee transactions keep the heap's internal order (they
are NOT broken by earliest timestamp — the sort key is `x[0]` alone). The
returned transactions all come from entries of the purged state, and no
entry older than the age bound survives the purge. -/
theorem C6_mining_order_amended (max_size : Nat) (max_age now : ℚ)
    (ops : List MempoolOp) (max_count : Nat) (st : MempoolState)
    (hst : st = runOps (mkMempool max_size max_age) ops) :
    ((get_transactions_for_mining st now max_count).1.Pairwise
        (fun a b => b.fee ≤ a.fee))
    ∧ (∀ t ∈ (get_transactions_for_mining st now max_count).1,
        ∃ e ∈ (get_transactions_for_mining st now max_count).2.priority_queue,
          e.tx = t)
    ∧ (get_transactions_for_mining st now max_count).2 = remove_expired st now
    ∧ (∀ e ∈ (get_transactions_for_mining st now max_count).2.priority_queue,
        ratSub now e.ts ≤ max_age) := by
  subst hst
  set s0 := runOps (mkMempool max_size max_age) ops with hs0
  have hm : MInv s0 := runOps_minv ops _ (mkMempool_minv _ _)
  have hm' : MInv (remove_expired s0 now) := remove_expired_minv s0 now hm
  obtain ⟨_, _, hwf'⟩ := hm'
  refine ⟨?_, ?_, rfl, ?_⟩
  · show (((pySortByNegFee (remove_expired s0 now).priority_queue).take
        max_count).map (fun e => e.tx)).Pairwise (fun a b => b.fee ≤ a.fee)
    rw [List.pairwise_map]
    have hs := pySortByNegFee_pairwise (remove_expired s0 now).priority_queue
    have hwfs : ∀ e ∈ pySortByNegFee (remove_expired s0 now).priority_queue,
        EntryWF e :=
      fun e he => hwf' e ((pySortByNegFee_perm _).mem_iff.mp he)
    have hs2 : (pySortByNegFee (remove_expired s0 now).priority_queue).Pairwise
        (fun a b => b.tx.fee ≤ a.tx.fee) := by
      refine pairwise_mono_mem ?_ hs
      intro a ha b hb hr
      have hwa := (hwfs a ha).1
      have hwb := (hwfs b hb).1
      rw [hwa, hwb] at hr
      linarith
    exact List.Pairwise.sublist (List.take_sublist _ _) hs2
  · intro t ht
    have ht' : t ∈ ((pySortByNegFee (remove_expired s0 now).priority_queue).take
        max_count).map (fun e => e.tx) := ht
    obtain ⟨e, he, rfl⟩ := List.mem_map.mp ht'
    refine ⟨e, ?_, rfl⟩
    have he2 : e ∈ pySortByNegFee (remove_expired s0 now).priority_queue :=
      (List.take_sublist _ _).subset he
    exact (pySortByNegFee_perm _).mem_iff.mp he2
  · intro e he
    have he' : e ∈ (remove_expired s0 now).priority_queue := he
    have hfresh := remove_expired_fresh s0 now hm e he'
    have hage : s0.max_tx_age = max_age := runOps_age ops (mkMempool max_size max_age)
    rw [hage] at hfresh
    exact le_of_not_lt hfresh

theorem C6_mining_order_amended_witness :
    ∃ e ∈ (get_transactions_for_mining
        (runOps (mkMempool 10 3600) [MempoolOp.add 40 cw6_tx]) 40 10).2.priority_queue,
      e.tx = cw6_tx := by
  have h := C6_mining_order_amended 10 3600 40 [MempoolOp.add 40 cw6_tx] 10
    (runOps (mkMempool 10 3600) [MempoolOp.add 40 cw6_tx]) rfl
  exact h.2.1 cw6_tx (by decide)
